import Mathlib

/-!
Verification of the cbor42 CBOR codec: a shallow embedding of `encode.rs`,
`decode.rs` and the value model, with the byte stream as a `List Nat`
(each element a byte), floats as IEEE-754 bit patterns, fallible code in
the `Except` monad, and the decoder's recursion made structural through a
fuel parameter that exceeds the input length.
-/

namespace Cbor42

/-- Error type of the codec. The crate's `error.rs` is not under `src/`;
Modelled from the spec: the error taxonomy of §7 (I/O failure, malformed
UTF-8, length-out-of-range, number-out-of-range, unexpected-code,
unknown-tag, invalid identifier prefix, identifier-parse failure,
unexpected-key), whose variants appear by name in `decode.rs` and
`encode.rs`. -/
inductive Error where
  | ioError
  | utf8Error
  | lengthOutOfRange
  | numberOutOfRange
  | unexpectedCode
  | unknownTag
  | invalidCidByte (b : Nat)
  | cidParse
  | unexpectedKey
deriving DecidableEq, Repr

/-! ## Primitive writes (encode.rs) -/

/-- Big-endian byte sequence of a 16-bit value (`BigEndian::write_u16`). -/
def be16 (v : Nat) : List Nat := [v / 2 ^ 8 % 2 ^ 8, v % 2 ^ 8]

/-- Big-endian byte sequence of a 32-bit value (`BigEndian::write_u32`). -/
def be32 (v : Nat) : List Nat :=
  [v / 2 ^ 24 % 2 ^ 8, v / 2 ^ 16 % 2 ^ 8, v / 2 ^ 8 % 2 ^ 8, v % 2 ^ 8]

/-- Big-endian byte sequence of a 64-bit value (`BigEndian::write_u64`). -/
def be64 (v : Nat) : List Nat :=
  [v / 2 ^ 56 % 2 ^ 8, v / 2 ^ 48 % 2 ^ 8, v / 2 ^ 40 % 2 ^ 8, v / 2 ^ 32 % 2 ^ 8,
   v / 2 ^ 24 % 2 ^ 8, v / 2 ^ 16 % 2 ^ 8, v / 2 ^ 8 % 2 ^ 8, v % 2 ^ 8]

/-- `write_u8(major, value)`: inline byte `(major<<5)|value` when the value
is at most 0x17, else the 1-byte form with code 24. -/
def write_u8 (major value : Nat) : List Nat :=
  if value ≤ 0x17 then [major * 32 + value] else [major * 32 + 24, value]

/-- `write_u16`: delegate to `write_u8` when the value fits in a byte, else
the 2-byte big-endian form with code 25. -/
def write_u16 (major value : Nat) : List Nat :=
  if value ≤ 0xff then write_u8 major value else (major * 32 + 25) :: be16 value

/-- `write_u32`: delegate to `write_u16` when the value fits in 16 bits,
else the 4-byte big-endian form with code 26. -/
def write_u32 (major value : Nat) : List Nat :=
  if value ≤ 0xffff then write_u16 major value else (major * 32 + 26) :: be32 value

/-- `write_u64`: delegate to `write_u32` when the value fits in 32 bits,
else the 8-byte big-endian form with code 27. -/
def write_u64 (major value : Nat) : List Nat :=
  if value ≤ 0xffffffff then write_u32 major value else (major * 32 + 27) :: be64 value

/-- `write_tag`: a tag is written with major type 6. -/
def write_tag (tag : Nat) : List Nat := write_u64 6 tag

/-- `write_null`: the single byte 0xf6. -/
def write_null : List Nat := [0xf6]

/-- The canonical width rule in the spec's own words: one inline byte when
the magnitude is at most 23, otherwise the smallest of the 1/2/4/8-byte
explicit-width forms (additional-information codes 24/25/26/27) that
losslessly holds the magnitude. Stated for comparison against the source's
cascading `write_u64`. -/
def spec_minimal_width (major value : Nat) : List Nat :=
  if value ≤ 23 then [major * 32 + value]
  else if value < 2 ^ 8 then [major * 32 + 24, value]
  else if value < 2 ^ 16 then (major * 32 + 25) :: be16 value
  else if value < 2 ^ 32 then (major * 32 + 26) :: be32 value
  else (major * 32 + 27) :: be64 value

/-! ## Primitive reads (decode.rs) -/

/-- `read_u8`: one byte off the stream; a short read is an I/O error. -/
def read_u8 : List Nat → Except Error (Nat × List Nat)
  | [] => .error Error.ioError
  | b :: r => .ok (b, r)

/-- `read_u16`: two bytes, big-endian. -/
def read_u16 : List Nat → Except Error (Nat × List Nat)
  | b0 :: b1 :: r => .ok (b0 * 2 ^ 8 + b1, r)
  | _ => .error Error.ioError

/-- `read_u32`: four bytes, big-endian. -/
def read_u32 : List Nat → Except Error (Nat × List Nat)
  | b0 :: b1 :: b2 :: b3 :: r =>
      .ok (b0 * 2 ^ 24 + b1 * 2 ^ 16 + b2 * 2 ^ 8 + b3, r)
  | _ => .error Error.ioError

/-- `read_u64`: eight bytes, big-endian. -/
def read_u64 : List Nat → Except Error (Nat × List Nat)
  | b0 :: b1 :: b2 :: b3 :: b4 :: b5 :: b6 :: b7 :: r =>
      .ok (b0 * 2 ^ 56 + b1 * 2 ^ 48 + b2 * 2 ^ 40 + b3 * 2 ^ 32 +
           b4 * 2 ^ 24 + b5 * 2 ^ 16 + b6 * 2 ^ 8 + b7, r)
  | _ => .error Error.ioError

/-- `read_f32` returns the big-endian 32-bit pattern of the float read. -/
def read_f32 (bytes : List Nat) : Except Error (Nat × List Nat) := read_u32 bytes

/-- `read_f64` returns the big-endian 64-bit pattern of the float read. -/
def read_f64 (bytes : List Nat) : Except Error (Nat × List Nat) := read_u64 bytes

/-- `read_bytes(len)`: an exact-length read (`read_exact`). -/
def read_bytes (len : Nat) (bytes : List Nat) : Except Error (List Nat × List Nat) :=
  if bytes.length < len then .error Error.ioError
  else .ok (bytes.take len, bytes.drop len)

/-! ## UTF-8 validation (`std::str::from_utf8` in `read_str`) -/

/-- A UTF-8 continuation byte. -/
def isCont (b : Nat) : Bool := 0x80 ≤ b && b ≤ 0xbf

/-- UTF-8 validity of a byte sequence: 1- to 4-byte sequences with the
standard continuation ranges, no overlong forms, no surrogates, maximum
scalar value 0x10ffff. A Rust `String`/`str` is exactly a valid sequence. -/
def validUtf8 : List Nat → Bool
  | [] => true
  | c :: rest =>
    if c ≤ 0x7f then validUtf8 rest
    else if 0xc2 ≤ c && c ≤ 0xdf then
      match rest with
      | c1 :: r => isCont c1 && validUtf8 r
      | _ => false
    else if c = 0xe0 then
      match rest with
      | c1 :: c2 :: r => (0xa0 ≤ c1 && c1 ≤ 0xbf) && isCont c2 && validUtf8 r
      | _ => false
    else if (0xe1 ≤ c && c ≤ 0xec) || c = 0xee || c = 0xef then
      match rest with
      | c1 :: c2 :: r => isCont c1 && isCont c2 && validUtf8 r
      | _ => false
    else if c = 0xed then
      match rest with
      | c1 :: c2 :: r => (0x80 ≤ c1 && c1 ≤ 0x9f) && isCont c2 && validUtf8 r
      | _ => false
    else if c = 0xf0 then
      match rest with
      | c1 :: c2 :: c3 :: r =>
          (0x90 ≤ c1 && c1 ≤ 0xbf) && isCont c2 && isCont c3 && validUtf8 r
      | _ => false
    else if 0xf1 ≤ c && c ≤ 0xf3 then
      match rest with
      | c1 :: c2 :: c3 :: r => isCont c1 && isCont c2 && isCont c3 && validUtf8 r
      | _ => false
    else if c = 0xf4 then
      match rest with
      | c1 :: c2 :: c3 :: r =>
          (0x80 ≤ c1 && c1 ≤ 0x8f) && isCont c2 && isCont c3 && validUtf8 r
      | _ => false
    else false

/-- `read_str(len)`: an exact-length read followed by UTF-8 validation; the
string is kept as its UTF-8 bytes. -/
def read_str (len : Nat) (bytes : List Nat) : Except Error (List Nat × List Nat) := do
  let (bs, r) ← read_bytes len bytes
  if validUtf8 bs then .ok (bs, r) else .error Error.utf8Error

/-- `read_key(expected)`: reads `expected.len() + 1` bytes and compares all
but the first of them against the expected key's bytes, failing with an
unexpected-key error on mismatch. Returns the remaining stream. -/
def read_key (key : List Nat) (bytes : List Nat) : Except Error (List Nat) := do
  let (bs, r) ← read_bytes (key.length + 1) bytes
  if key = bs.drop 1 then .ok r else .error Error.unexpectedKey

/-! ## The content identifier collaborator -/

/-- Content identifier. Modelled from the spec: the identifier library is an
external collaborator and the identifier at this layer is "an opaque binary
identifier with no semantics beyond its byte representation"; the
collaborator supplies a byte serialization (`to_bytes`, the raw binary form)
and a deserialization (`try_from`) that accepts the serialized form. -/
structure Cid where
  bytes : List Nat
deriving DecidableEq, Repr

/-- The collaborator's byte serialization of an identifier. -/
def Cid.toBytes (c : Cid) : List Nat := c.bytes

/-- The collaborator's byte deserialization. Modelled from the spec: it
inverts `toBytes`; its own internal validation is out of scope. -/
def Cid.tryFrom (bs : List Nat) : Except Error Cid := .ok ⟨bs⟩

/-- `read_link`: after the leading 0xd8 byte, require tag value 42, then
exactly the 1-byte-width byte-string length code 0x58, a nonzero length, a
zero first content byte, and parse the rest as a content identifier. -/
def read_link (bytes : List Nat) : Except Error (Cid × List Nat) := do
  let (tag, r) ← read_u8 bytes
  if tag ≠ 42 then throw Error.unknownTag
  let (ty, r) ← read_u8 r
  if ty ≠ 0x58 then throw Error.unknownTag
  let (len, r) ← read_u8 r
  if len = 0 then throw Error.lengthOutOfRange
  let (bs, r) ← read_bytes len r
  if bs.headD 0 ≠ 0 then throw (Error.invalidCidByte (bs.headD 0))
  let c ← Cid.tryFrom (bs.drop 1)
  pure (c, r)

/-! ## IEEE-754 bit-level float model

`f64` and `f32` values are carried as their bit patterns (a `Nat` below
`2^64` resp. `2^32`). The encoder needs the Rust casts `f64 as f32`
(round to nearest, ties to even) and `f32 as f64` (exact), plus IEEE
equality and the classification predicates. -/

/-- Sign bit of an f64 pattern. -/
def f64Sign (b : Nat) : Nat := b / 2 ^ 63

/-- Exponent field of an f64 pattern. -/
def f64Exp (b : Nat) : Nat := b / 2 ^ 52 % 2 ^ 11

/-- Mantissa field of an f64 pattern. -/
def f64Man (b : Nat) : Nat := b % 2 ^ 52

/-- Sign bit of an f32 pattern. -/
def f32Sign (g : Nat) : Nat := g / 2 ^ 31

/-- Exponent field of an f32 pattern. -/
def f32Exp (g : Nat) : Nat := g / 2 ^ 23 % 2 ^ 8

/-- Mantissa field of an f32 pattern. -/
def f32Man (g : Nat) : Nat := g % 2 ^ 23

/-- `f64::is_nan`. -/
def isNaN64 (b : Nat) : Bool := f64Exp b = 0x7ff && f64Man b ≠ 0

/-- `f64::is_infinite`. -/
def isInf64 (b : Nat) : Bool := f64Exp b = 0x7ff && f64Man b = 0

/-- `f64::is_finite`. -/
def isFinite64 (b : Nat) : Bool := f64Exp b ≠ 0x7ff

/-- The pattern denotes a (positive or negative) zero. -/
def isZero64 (b : Nat) : Bool := f64Exp b = 0 && f64Man b = 0

/-- `f32::is_nan`. -/
def isNaN32 (g : Nat) : Bool := f32Exp g = 0xff && f32Man g ≠ 0

/-- `f32::is_infinite`. -/
def isInf32 (g : Nat) : Bool := f32Exp g = 0xff && f32Man g = 0

/-- IEEE equality on f64 bit patterns (Rust `==` on `f64`): NaNs compare
unequal to everything, positive and negative zero compare equal, and any
other two values are equal exactly when their patterns are. -/
def fpEq64 (a b : Nat) : Bool :=
  if isNaN64 a || isNaN64 b then false
  else if isZero64 a && isZero64 b then true
  else a == b

/-- Bit length with explicit fuel (enough for any 64-bit value), so that it
reduces by kernel computation. -/
def bitlenAux : Nat → Nat → Nat
  | 0, _ => 0
  | fuel + 1, n => if n = 0 then 0 else bitlenAux fuel (n / 2) + 1

/-- Number of bits of a value below `2^64`. -/
def bitlen (n : Nat) : Nat := bitlenAux 64 n

/-- Round `sig / d` to the nearest integer, ties to even (the IEEE default
rounding used by Rust float casts). -/
def roundHalfEven (sig d : Nat) : Nat :=
  let q := sig / d
  let r := sig % d
  if d < 2 * r then q + 1
  else if 2 * r < d then q
  else q + q % 2

/-- Assemble an f32 pattern for the magnitude `q * 2 ^ t` with sign bit `s`,
renormalizing a rounding carry (`q = 2^24`) and overflowing to infinity.
`q < 2^23` is the subnormal case, where `t = -149` by construction. -/
def mkF32 (s q : Nat) (t : Int) : Nat :=
  if q = 0 then s * 2 ^ 31
  else if q < 2 ^ 23 then s * 2 ^ 31 + q
  else
    let qt := if 2 ^ 24 ≤ q then ((2 ^ 23 : Nat), t + 1) else (q, t)
    let e32 := qt.2 + 150
    if 255 ≤ e32 then s * 2 ^ 31 + 0xff * 2 ^ 23
    else s * 2 ^ 31 + e32.toNat * 2 ^ 23 + (qt.1 - 2 ^ 23)

/-- The Rust `f64 as f32` cast on bit patterns: round to nearest, ties to
even; overflow gives an infinity of the same sign; a NaN gives a quiet NaN
of the same sign; infinities map to infinities. The finite magnitude is
`sig * 2 ^ exp2` and is rounded into f32 position. -/
def f64toF32 (b : Nat) : Nat :=
  let s := f64Sign b
  let e := f64Exp b
  let m := f64Man b
  if e = 0x7ff then
    if m = 0 then s * 2 ^ 31 + 0xff * 2 ^ 23
    else s * 2 ^ 31 + 0xff * 2 ^ 23 + 0x400000
  else
    let sig := if e = 0 then m else 2 ^ 52 + m
    let exp2 : Int := if e = 0 then -1074 else (e : Int) - 1075
    if sig = 0 then s * 2 ^ 31
    else
      let expv : Int := exp2 + bitlen sig - 1
      let t : Int := max (expv - 23) (-149)
      let d : Int := exp2 - t
      let q := if 0 ≤ d then sig * 2 ^ d.toNat else roundHalfEven sig (2 ^ (-d).toNat)
      mkF32 s q t

/-- The Rust `f32 as f64` widening cast on bit patterns (exact): the
exponent is re-biased, a subnormal is renormalized, NaN payloads and
infinities are carried across. -/
def f32toF64 (g : Nat) : Nat :=
  let s := f32Sign g
  let e := f32Exp g
  let m := f32Man g
  if e = 0xff then s * 2 ^ 63 + 0x7ff * 2 ^ 52 + m * 2 ^ 29
  else if e = 0 then
    if m = 0 then s * 2 ^ 63
    else
      let j := bitlen m - 1
      s * 2 ^ 63 + (j + 874) * 2 ^ 52 + (m - 2 ^ j) * 2 ^ (52 - j)
  else s * 2 ^ 63 + (e + 896) * 2 ^ 52 + m * 2 ^ 29

/-- The f32 encoder: fixed half-precision-tagged sequences for the
infinities (by sign) and NaN, else the 4-byte big-endian form under 0xfa. -/
def encode_f32 (g : Nat) : List Nat :=
  if isInf32 g then
    if f32Sign g = 0 then [0xf9, 0x7c, 0x00] else [0xf9, 0xfc, 0x00]
  else if isNaN32 g then [0xf9, 0x7e, 0x00]
  else 0xfa :: be32 g

/-- The f64 encoder: when the value is non-finite or survives the round
trip through f32 under IEEE equality, narrow and delegate to the f32
encoder; else the 8-byte big-endian form under 0xfb. -/
def encode_f64 (b : Nat) : List Nat :=
  if !isFinite64 b || fpEq64 (f32toF64 (f64toF32 b)) b then encode_f32 (f64toF32 b)
  else 0xfb :: be64 b

/-- `i128` encode: negative values go out as major type 1 with magnitude
`-(v + 1)`, non-negative as major type 0, and a magnitude above
`u64::MAX` is a number-out-of-range error. -/
def encode_i128 (v : Int) : Except Error (List Nat) :=
  if v < 0 then
    if (2 ^ 64 - 1 : Int) < -(v + 1) then .error Error.numberOutOfRange
    else .ok (write_u64 1 (-(v + 1)).toNat)
  else
    if (2 ^ 64 - 1 : Int) < v then .error Error.numberOutOfRange
    else .ok (write_u64 0 v.toNat)

/-! ## The value model -/

mutual
/-- The generic value model (`Ipld`), with floats as f64 bit patterns,
strings as their UTF-8 bytes, and maps as key-sorted association sequences
(the canonical state of a `BTreeMap<String, Ipld>`). The list and map
spines are dedicated inductives so that all recursion over values is
structural. -/
inductive Ipld where
  | null
  | bool (b : Bool)
  | integer (i : Int)
  | float (bits : Nat)
  | bytes (bs : List Nat)
  | string (s : List Nat)
  | list (l : IpldList)
  | map (m : IpldMap)
  | link (c : Cid)

/-- Spine of `Vec<Ipld>`. -/
inductive IpldList where
  | nil
  | cons (hd : Ipld) (tl : IpldList)

/-- Spine of `BTreeMap<String, Ipld>` in iteration (key-sorted) order. -/
inductive IpldMap where
  | nil
  | cons (key : List Nat) (val : Ipld) (tl : IpldMap)
end

/-- Number of elements of a list value. -/
def IpldList.length : IpldList → Nat
  | .nil => 0
  | .cons _ t => t.length + 1

/-- Number of entries of a map value. -/
def IpldMap.length : IpldMap → Nat
  | .nil => 0
  | .cons _ _ t => t.length + 1

/-- Strict lexicographic byte order on keys: the order of Rust `String`
(`str` comparison is byte-wise lexicographic on UTF-8). -/
def keyLt : List Nat → List Nat → Bool
  | [], [] => false
  | [], _ :: _ => true
  | _ :: _, [] => false
  | a :: as', b :: bs' => if a < b then true else if a = b then keyLt as' bs' else false

/-- `BTreeMap::insert` on the sorted association spine: the later value
overwrites on an equal key. -/
def insertKV : IpldMap → List Nat → Ipld → IpldMap
  | .nil, k, v => .cons k v .nil
  | .cons k' v' t, k, v =>
      if keyLt k k' then .cons k v (.cons k' v' t)
      else if k = k' then .cons k v t
      else .cons k' v' (insertKV t k v)

/-! ## The value encoder (`impl Encode<RawCborCodec> for Ipld`) -/

mutual
/-- Encode a value: null and bools as their simple bytes, integers through
the `i128` rule, floats through the f64 rule, byte and text strings as a
canonical-width length followed by the raw bytes, lists and maps as a
canonical-width count followed by the children (map entries as key then
value, in iteration order), and links as tag 42 followed by a byte string
of one zero byte plus the identifier's binary form. -/
def encode_ipld : Ipld → Except Error (List Nat)
  | .null => .ok write_null
  | .bool b => .ok [if b then 0xf5 else 0xf4]
  | .integer i => encode_i128 i
  | .float b => .ok (encode_f64 b)
  | .bytes bs => .ok (write_u64 2 bs.length ++ bs)
  | .string s => .ok (write_u64 3 s.length ++ s)
  | .list l => do
      let es ← encode_ipld_list l
      .ok (write_u64 4 l.length ++ es)
  | .map m => do
      let es ← encode_ipld_map m
      .ok (write_u64 5 m.length ++ es)
  | .link c => .ok (write_tag 42 ++ write_u64 2 (c.bytes.length + 1) ++ 0 :: c.bytes)

/-- Encode list elements in order. -/
def encode_ipld_list : IpldList → Except Error (List Nat)
  | .nil => .ok []
  | .cons v t => do
      let e ← encode_ipld v
      let es ← encode_ipld_list t
      .ok (e ++ es)

/-- Encode map entries in iteration order, each as the key's text-string
encoding followed by the value. -/
def encode_ipld_map : IpldMap → Except Error (List Nat)
  | .nil => .ok []
  | .cons k v t => do
      let e ← encode_ipld v
      let es ← encode_ipld_map t
      .ok ((write_u64 3 k.length ++ k) ++ e ++ es)
end

/-! ## Representable values -/

mutual
/-- The representable values: integers within `[-2^64, 2^64 - 1]`, finite
floats, byte elements that are bytes, UTF-8-valid strings, lengths within
the 64-bit range, maps key-sorted without duplicates — and, restricting the
round-trip hypothesis to where the link codec is invertible, links whose
binary identifier length is in `[23, 254]` (so that the byte-string length
field takes the 1-byte-width form the link decoder insists on). -/
def valid : Ipld → Bool
  | .null => true
  | .bool _ => true
  | .integer i => decide (-(2 ^ 64 : Int) ≤ i) && decide (i < 2 ^ 64)
  | .float b => decide (b < 2 ^ 64) && isFinite64 b
  | .bytes bs => decide (bs.length < 2 ^ 64) && bs.all (fun x => decide (x < 256))
  | .string s => validUtf8 s && decide (s.length < 2 ^ 64)
  | .list l => valid_list l && decide (l.length < 2 ^ 64)
  | .map m => valid_map m && decide (m.length < 2 ^ 64)
  | .link c => c.bytes.all (fun x => decide (x < 256)) &&
      decide (23 ≤ c.bytes.length) && decide (c.bytes.length ≤ 254)

/-- All elements representable. -/
def valid_list : IpldList → Bool
  | .nil => true
  | .cons v t => valid v && valid_list t

/-- All keys UTF-8-valid and strictly ascending, all values representable. -/
def valid_map : IpldMap → Bool
  | .nil => true
  | .cons k v t => validUtf8 k && decide (k.length < 2 ^ 64) && valid v && valid_map t &&
      (match t with
       | .nil => true
       | .cons k' _ _ => keyLt k k')
end

/-! ## The generic-value decoder (`impl TryReadCbor for Ipld`) -/

/-- `usize::MAX` on the 64-bit targets the crate is built for. -/
def usizeMax : Nat := 2 ^ 64 - 1

/-- The length field of a major type with inline base `base`: inline 0-23,
or the 1/2/4/8-byte explicit widths (codes 24/25/26/27) with the 64-bit
form's `usize` range check — the `let len = match major` block that the
source repeats for each length-prefixed major type. Reports `none` outside
the major type's byte range. -/
def read_len_arm (base major : Nat) (bytes : List Nat) : Except Error (Option (Nat × List Nat)) :=
  if base ≤ major ∧ major ≤ base + 0x17 then .ok (some (major - base, bytes))
  else if major = base + 0x18 then do
    let (n, r) ← read_u8 bytes
    .ok (some (n, r))
  else if major = base + 0x19 then do
    let (n, r) ← read_u16 bytes
    .ok (some (n, r))
  else if major = base + 0x1a then do
    let (n, r) ← read_u32 bytes
    .ok (some (n, r))
  else if major = base + 0x1b then do
    let (n, r) ← read_u64 bytes
    if usizeMax < n then throw Error.lengthOutOfRange
    else .ok (some (n, r))
  else .ok none

/-- `try_read_cbor` for `String`: major type 3, then an exact-length
UTF-8-validated read. -/
def try_read_string (major : Nat) (bytes : List Nat) :
    Except Error (Option (List Nat × List Nat)) := do
  match ← read_len_arm 0x60 major bytes with
  | none => .ok none
  | some (len, r) =>
      let (s, r') ← read_str len r
      .ok (some (s, r'))

/-- `read::<String>`: one leading byte, then the type-directed string rule;
a declined byte is an unexpected-code error. -/
def read_string (bytes : List Nat) : Except Error (List Nat × List Nat) := do
  let (major, r) ← read_u8 bytes
  match ← try_read_string major r with
  | some x => .ok x
  | none => throw Error.unexpectedCode

/-- `read_list`: decode `n` children in sequence with the supplied child
decoder, preserving order. -/
def read_list_aux (rd : List Nat → Except Error (Ipld × List Nat)) :
    Nat → List Nat → Except Error (IpldList × List Nat)
  | 0, bytes => .ok (.nil, bytes)
  | n + 1, bytes => do
      let (v, r) ← rd bytes
      let (vs, r') ← read_list_aux rd n r
      .ok (.cons v vs, r')

/-- `read_map`: decode `n` key/value pairs, the key as a string, inserting
each into the accumulated map (the later value overwrites on a duplicate
key). -/
def read_map_aux (rd : List Nat → Except Error (Ipld × List Nat)) :
    Nat → IpldMap → List Nat → Except Error (IpldMap × List Nat)
  | 0, m, bytes => .ok (m, bytes)
  | n + 1, m, bytes => do
      let (k, r) ← read_string bytes
      let (v, r') ← rd r
      read_map_aux rd n (insertKV m k v) r'

/-- The leading-byte dispatch of `try_read_cbor` for `Ipld`, one arm per
byte range of the source's match, with the recursive child decode
abstracted as `rd`. A byte no arm claims reports `none`. -/
def try_read_ipld (rd : List Nat → Except Error (Ipld × List Nat)) (major : Nat)
    (bytes : List Nat) : Except Error (Option (Ipld × List Nat)) :=
  if major ≤ 0x17 then .ok (some (.integer major, bytes))
  else if major = 0x18 then do
    let (n, r) ← read_u8 bytes
    .ok (some (.integer n, r))
  else if major = 0x19 then do
    let (n, r) ← read_u16 bytes
    .ok (some (.integer n, r))
  else if major = 0x1a then do
    let (n, r) ← read_u32 bytes
    .ok (some (.integer n, r))
  else if major = 0x1b then do
    let (n, r) ← read_u64 bytes
    .ok (some (.integer n, r))
  else if 0x20 ≤ major ∧ major ≤ 0x37 then
    .ok (some (.integer (-1 - ((major - 0x20 : Nat) : Int)), bytes))
  else if major = 0x38 then do
    let (n, r) ← read_u8 bytes
    .ok (some (.integer (-1 - (n : Int)), r))
  else if major = 0x39 then do
    let (n, r) ← read_u16 bytes
    .ok (some (.integer (-1 - (n : Int)), r))
  else if major = 0x3a then do
    let (n, r) ← read_u32 bytes
    .ok (some (.integer (-1 - (n : Int)), r))
  else if major = 0x3b then do
    let (n, r) ← read_u64 bytes
    .ok (some (.integer (-1 - (n : Int)), r))
  else if 0x40 ≤ major ∧ major ≤ 0x5b then do
    match ← read_len_arm 0x40 major bytes with
    | none => .ok none
    | some (len, r) =>
        let (bs, r') ← read_bytes len r
        .ok (some (.bytes bs, r'))
  else if 0x60 ≤ major ∧ major ≤ 0x7b then do
    match ← read_len_arm 0x60 major bytes with
    | none => .ok none
    | some (len, r) =>
        let (s, r') ← read_str len r
        .ok (some (.string s, r'))
  else if 0x80 ≤ major ∧ major ≤ 0x9b then do
    match ← read_len_arm 0x80 major bytes with
    | none => .ok none
    | some (len, r) =>
        let (l, r') ← read_list_aux rd len r
        .ok (some (.list l, r'))
  else if 0xa0 ≤ major ∧ major ≤ 0xbb then do
    match ← read_len_arm 0xa0 major bytes with
    | none => .ok none
    | some (len, r) =>
        let (m, r') ← read_map_aux rd len .nil r
        .ok (some (.map m, r'))
  else if major = 0xd8 then do
    let (c, r) ← read_link bytes
    .ok (some (.link c, r))
  else if major = 0xf4 then .ok (some (.bool false, bytes))
  else if major = 0xf5 then .ok (some (.bool true, bytes))
  else if major = 0xf6 then .ok (some (.null, bytes))
  else if major = 0xf7 then .ok (some (.null, bytes))
  else if major = 0xfa then do
    let (g, r) ← read_f32 bytes
    .ok (some (.float (f32toF64 g), r))
  else if major = 0xfb then do
    let (b, r) ← read_f64 bytes
    .ok (some (.float b, r))
  else .ok none

/-- `read::<Ipld>`: one leading byte, then the dispatch; a declined byte is
an unexpected-code error. The fuel counts nesting levels; every level
consumes at least one byte before recursing, so any fuel beyond the input
length is inexhaustible (fuel 0 is unreachable from `decode_ipld`). -/
def read_ipld : Nat → List Nat → Except Error (Ipld × List Nat)
  | 0, _ => .error Error.unexpectedCode
  | fuel + 1, bytes => do
      let (major, r) ← read_u8 bytes
      match ← try_read_ipld (read_ipld fuel) major r with
      | some x => .ok x
      | none => throw Error.unexpectedCode

/-- The decoding entry point (`Ipld::decode`). -/
def decode_ipld (bytes : List Nat) : Except Error (Ipld × List Nat) :=
  read_ipld (bytes.length + 1) bytes

/-! ## Type-directed signed-integer decode (`TryReadCbor` for `i8`/`i64`) -/

/-- The Rust `u8 as i8` wrapping cast. -/
def castU8I8 (n : Nat) : Int :=
  if n % 256 < 128 then (n % 256 : Int) else (n % 256 : Int) - 256

/-- The Rust `u64 as i64` wrapping cast. -/
def castU64I64 (n : Nat) : Int :=
  if n % 2 ^ 64 < 2 ^ 63 then (n % 2 ^ 64 : Int) else (n % 2 ^ 64 : Int) - 2 ^ 64

/-- `try_read_cbor` for `i8`: each arm computes `-1 - (magnitude as i8)`;
the cast wraps, the subtraction then stays within `i8`. -/
def try_read_i8 (major : Nat) (bytes : List Nat) : Except Error (Option (Int × List Nat)) :=
  if 0x20 ≤ major ∧ major ≤ 0x37 then
    .ok (some (-1 - ((major - 0x20 : Nat) : Int), bytes))
  else if major = 0x38 then do
    let (n, r) ← read_u8 bytes
    .ok (some (-1 - castU8I8 n, r))
  else .ok none

/-- `try_read_cbor` for `i64`: each arm computes `-1 - (magnitude as i64)`;
the u8/u16/u32 casts are exact, the u64 cast wraps. -/
def try_read_i64 (major : Nat) (bytes : List Nat) : Except Error (Option (Int × List Nat)) :=
  if 0x20 ≤ major ∧ major ≤ 0x37 then
    .ok (some (-1 - ((major - 0x20 : Nat) : Int), bytes))
  else if major = 0x38 then do
    let (n, r) ← read_u8 bytes
    .ok (some (-1 - (n : Int), r))
  else if major = 0x39 then do
    let (n, r) ← read_u16 bytes
    .ok (some (-1 - (n : Int), r))
  else if major = 0x3a then do
    let (n, r) ← read_u32 bytes
    .ok (some (-1 - (n : Int), r))
  else if major = 0x3b then do
    let (n, r) ← read_u64 bytes
    .ok (some (-1 - castU64I64 n, r))
  else .ok none

/-- `read::<i8>` (the `Decode` instance for `i8`). -/
def decode_i8 (bytes : List Nat) : Except Error (Int × List Nat) := do
  let (major, r) ← read_u8 bytes
  match ← try_read_i8 major r with
  | some x => .ok x
  | none => throw Error.unexpectedCode

/-- `read::<i64>` (the `Decode` instance for `i64`). -/
def decode_i64 (bytes : List Nat) : Except Error (Int × List Nat) := do
  let (major, r) ← read_u8 bytes
  match ← try_read_i64 major r with
  | some x => .ok x
  | none => throw Error.unexpectedCode

/-! ## Monad and byte-level lemmas -/

@[simp]
theorem except_bind_ok {ε α β : Type} (a : α) (f : α → Except ε β) :
    (Except.ok a : Except ε α) >>= f = f a := rfl

@[simp]
theorem except_bind_error {ε α β : Type} (e : ε) (f : α → Except ε β) :
    (Except.error e : Except ε α) >>= f = .error e := rfl

@[simp]
theorem except_pure_eq {ε α : Type} (a : α) : (pure a : Except ε α) = .ok a := rfl

@[simp]
theorem except_throw_eq {ε α : Type} (e : ε) : (throw e : Except ε α) = .error e := rfl

@[simp]
theorem except_map_ok {ε α β : Type} (f : α → β) (a : α) :
    (f <$> (Except.ok a : Except ε α)) = .ok (f a) := rfl

@[simp]
theorem except_map_error {ε α β : Type} (f : α → β) (e : ε) :
    (f <$> (Except.error e : Except ε α)) = .error e := rfl

@[simp]
theorem read_bytes_append (bs rest : List Nat) :
    read_bytes bs.length (bs ++ rest) = .ok (bs, rest) := by
  simp [read_bytes, List.take_left, List.drop_left]

theorem read_bytes_exact (len : Nat) (bs rest : List Nat) (h : bs.length = len) :
    read_bytes len (bs ++ rest) = .ok (bs, rest) := by
  subst h; exact read_bytes_append bs rest

@[simp]
theorem read_u8_cons (b : Nat) (r : List Nat) : read_u8 (b :: r) = .ok (b, r) := rfl

theorem read_u16_be (v : Nat) (h : v < 2 ^ 16) (rest : List Nat) :
    read_u16 (be16 v ++ rest) = .ok (v, rest) := by
  simp only [be16, List.cons_append, List.nil_append, read_u16]
  congr 1
  congr 1
  omega

theorem read_u32_be (v : Nat) (h : v < 2 ^ 32) (rest : List Nat) :
    read_u32 (be32 v ++ rest) = .ok (v, rest) := by
  simp only [be32, List.cons_append, List.nil_append, read_u32]
  congr 1
  congr 1
  omega

theorem read_u64_be (v : Nat) (h : v < 2 ^ 64) (rest : List Nat) :
    read_u64 (be64 v ++ rest) = .ok (v, rest) := by
  simp only [be64, List.cons_append, List.nil_append, read_u64]
  congr 1
  congr 1
  omega

/-! ## The canonical width cascade -/

/-- The length in bytes of each width form. -/
theorem write_u64_length (major v : Nat) :
    (write_u64 major v).length = 1 ∨
    (write_u64 major v).length = 2 ∨
    (write_u64 major v).length = 3 ∨
    (write_u64 major v).length = 5 ∨
    (write_u64 major v).length = 9 := by
  unfold write_u64 write_u32 write_u16 write_u8 be16 be32 be64
  split_ifs <;> simp

theorem write_u64_length_pos (major v : Nat) : 1 ≤ (write_u64 major v).length := by
  rcases write_u64_length major v with h | h | h | h | h <;> omega

/-- The four width cases of the cascade, as explicit byte lists. -/
theorem write_u64_cases (major v : Nat) :
    (v ≤ 23 ∧ write_u64 major v = [major * 32 + v]) ∨
    (23 < v ∧ v < 2 ^ 8 ∧ write_u64 major v = [major * 32 + 24, v]) ∨
    (2 ^ 8 ≤ v ∧ v < 2 ^ 16 ∧ write_u64 major v = (major * 32 + 25) :: be16 v) ∨
    (2 ^ 16 ≤ v ∧ v < 2 ^ 32 ∧ write_u64 major v = (major * 32 + 26) :: be32 v) ∨
    (2 ^ 32 ≤ v ∧ write_u64 major v = (major * 32 + 27) :: be64 v) := by
  unfold write_u64 write_u32 write_u16 write_u8
  split_ifs with h1 h2 h3 h4 <;> first
    | (left; exact ⟨by omega, rfl⟩)
    | (right; left; exact ⟨by omega, by omega, rfl⟩)
    | (right; right; left; exact ⟨by omega, by omega, rfl⟩)
    | (right; right; right; left; exact ⟨by omega, by omega, rfl⟩)
    | (right; right; right; right; exact ⟨by omega, rfl⟩)

/-- C1. For every major type and magnitude in the 64-bit range, the
cascading width encoder agrees with the spec's "smallest of the five
representations" selection rule. -/
theorem write_u64_minimal (major v : Nat) (h : v < 2 ^ 64) :
    write_u64 major v = spec_minimal_width major v := by
  unfold write_u64 write_u32 write_u16 write_u8 spec_minimal_width
  split_ifs <;> first | rfl | omega

/-! ## Decoder arm lemmas -/

theorem read_len_arm_write (m len : Nat) (hlen : len < 2 ^ 64) (payload : List Nat) :
    ∃ hd tl, write_u64 m len = hd :: tl ∧ m * 32 ≤ hd ∧ hd ≤ m * 32 + 27 ∧
      read_len_arm (m * 32) hd (tl ++ payload) = .ok (some (len, payload)) := by
  rcases write_u64_cases m len with ⟨h1, e⟩ | ⟨h1, h2, e⟩ | ⟨h1, h2, e⟩ | ⟨h1, h2, e⟩ | ⟨h1, e⟩
  · refine ⟨m * 32 + len, [], e, by omega, by omega, ?_⟩
    unfold read_len_arm
    rw [if_pos (by omega)]
    simp only [List.nil_append]
    have hsub : m * 32 + len - m * 32 = len := by omega
    rw [hsub]
  · refine ⟨m * 32 + 24, [len], e, by omega, by omega, ?_⟩
    unfold read_len_arm
    repeat rw [if_neg (by omega)]
    rw [if_pos (by omega)]
    simp
  · refine ⟨m * 32 + 25, be16 len, e, by omega, by omega, ?_⟩
    unfold read_len_arm
    repeat rw [if_neg (by omega)]
    rw [if_pos (by omega)]
    rw [read_u16_be len (by omega) payload]
    simp
  · refine ⟨m * 32 + 26, be32 len, e, by omega, by omega, ?_⟩
    unfold read_len_arm
    repeat rw [if_neg (by omega)]
    rw [if_pos (by omega)]
    rw [read_u32_be len (by omega) payload]
    simp
  · refine ⟨m * 32 + 27, be64 len, e, by omega, by omega, ?_⟩
    unfold read_len_arm
    repeat rw [if_neg (by omega)]
    rw [if_pos (by omega)]
    rw [read_u64_be len hlen payload]
    simp only [except_bind_ok]
    rw [if_neg (by unfold usizeMax; omega)]

theorem try_read_ipld_int_inline (rd : List Nat → Except Error (Ipld × List Nat))
    (b : Nat) (h : b ≤ 0x17) (bytes : List Nat) :
    try_read_ipld rd b bytes = .ok (some (.integer b, bytes)) := by
  unfold try_read_ipld
  rw [if_pos h]

theorem try_read_ipld_neg_inline (rd : List Nat → Except Error (Ipld × List Nat))
    (b : Nat) (h1 : 0x20 ≤ b) (h2 : b ≤ 0x37) (bytes : List Nat) :
    try_read_ipld rd b bytes = .ok (some (.integer (-1 - ((b - 0x20 : Nat) : Int)), bytes)) := by
  unfold try_read_ipld
  repeat rw [if_neg (by omega)]
  rw [if_pos (by omega)]

theorem try_read_ipld_group (rd : List Nat → Except Error (Ipld × List Nat))
    (b : Nat) (h1 : 0x40 ≤ b) (h2 : b ≤ 0xbb) (bytes : List Nat) :
    try_read_ipld rd b bytes =
      (if b ≤ 0x5b then do
        match ← read_len_arm 0x40 b bytes with
        | none => .ok none
        | some (len, r) => do
            let (bs, r') ← read_bytes len r
            .ok (some (.bytes bs, r'))
      else if 0x60 ≤ b ∧ b ≤ 0x7b then do
        match ← read_len_arm 0x60 b bytes with
        | none => .ok none
        | some (len, r) => do
            let (s, r') ← read_str len r
            .ok (some (.string s, r'))
      else if 0x80 ≤ b ∧ b ≤ 0x9b then do
        match ← read_len_arm 0x80 b bytes with
        | none => .ok none
        | some (len, r) => do
            let (l, r') ← read_list_aux rd len r
            .ok (some (.list l, r'))
      else if 0xa0 ≤ b then do
        match ← read_len_arm 0xa0 b bytes with
        | none => .ok none
        | some (len, r) => do
            let (m, r') ← read_map_aux rd len .nil r
            .ok (some (.map m, r'))
      else .ok none) := by
  unfold try_read_ipld
  repeat rw [if_neg (by omega)]
  by_cases hb : b ≤ 0x5b
  · rw [if_pos (by omega), if_pos hb]
  · rw [if_neg (by omega), if_neg hb]
    by_cases hs : 0x60 ≤ b ∧ b ≤ 0x7b
    · rw [if_pos hs, if_pos hs]
    · rw [if_neg hs, if_neg hs]
      by_cases hl : 0x80 ≤ b ∧ b ≤ 0x9b
      · rw [if_pos hl, if_pos hl]
      · rw [if_neg hl, if_neg hl]
        by_cases hm : 0xa0 ≤ b ∧ b ≤ 0xbb
        · rw [if_pos hm, if_pos (by omega)]
        · rw [if_neg hm]
          repeat rw [if_neg (by omega)]

theorem read_ipld_write_int0 (fuel mag : Nat) (h : mag < 2 ^ 64) (rest : List Nat) :
    read_ipld (fuel + 1) (write_u64 0 mag ++ rest) = .ok (.integer mag, rest) := by
  rcases write_u64_cases 0 mag with ⟨h1, e⟩ | ⟨h1, h2, e⟩ | ⟨h1, h2, e⟩ | ⟨h1, h2, e⟩ | ⟨h1, e⟩ <;>
    rw [e] <;>
    simp only [List.cons_append, List.nil_append, read_ipld, read_u8_cons, except_bind_ok,
      Nat.zero_mul, Nat.zero_add]
  · rw [try_read_ipld_int_inline _ mag h1]
    simp
  · simp [try_read_ipld]
  · simp only [try_read_ipld, read_len_arm]
    norm_num
    rw [read_u16_be mag (by omega) rest]
    simp
  · simp only [try_read_ipld, read_len_arm]
    norm_num
    rw [read_u32_be mag (by omega) rest]
    simp
  · simp only [try_read_ipld, read_len_arm]
    norm_num
    rw [read_u64_be mag h rest]
    simp

theorem read_ipld_write_int1 (fuel mag : Nat) (h : mag < 2 ^ 64) (rest : List Nat) :
    read_ipld (fuel + 1) (write_u64 1 mag ++ rest) =
      .ok (.integer (-1 - (mag : Int)), rest) := by
  rcases write_u64_cases 1 mag with ⟨h1, e⟩ | ⟨h1, h2, e⟩ | ⟨h1, h2, e⟩ | ⟨h1, h2, e⟩ | ⟨h1, e⟩ <;>
    rw [e] <;>
    simp only [List.cons_append, List.nil_append, read_ipld, read_u8_cons, except_bind_ok,
      Nat.one_mul]
  · rw [try_read_ipld_neg_inline _ (32 + mag) (by omega) (by omega)]
    have hc : ((32 + mag - 0x20 : Nat) : Int) = (mag : Int) := by
      have : 32 + mag - 0x20 = mag := by omega
      rw [this]
    rw [hc]
    simp
  · simp [try_read_ipld]
  · simp only [try_read_ipld, read_len_arm]
    norm_num
    rw [read_u16_be mag (by omega) rest]
    simp
  · simp only [try_read_ipld, read_len_arm]
    norm_num
    rw [read_u32_be mag (by omega) rest]
    simp
  · simp only [try_read_ipld, read_len_arm]
    norm_num
    rw [read_u64_be mag h rest]
    simp

theorem read_ipld_write_bytes (fuel : Nat) (bs : List Nat) (h : bs.length < 2 ^ 64)
    (rest : List Nat) :
    read_ipld (fuel + 1) ((write_u64 2 bs.length ++ bs) ++ rest) = .ok (.bytes bs, rest) := by
  obtain ⟨hd, tl, he, hlo, hhi, harm⟩ := read_len_arm_write 2 bs.length h (bs ++ rest)
  rw [List.append_assoc, he, List.cons_append]
  simp only [read_ipld, read_u8_cons, except_bind_ok]
  rw [try_read_ipld_group _ hd (by omega) (by omega)]
  rw [if_pos (by omega)]
  have hbase : (2 : Nat) * 32 = 0x40 := by norm_num
  rw [hbase] at harm
  rw [harm]
  simp only [except_bind_ok]
  rw [read_bytes_append bs rest]
  simp

theorem read_ipld_write_string (fuel : Nat) (s : List Nat) (hu : validUtf8 s = true)
    (h : s.length < 2 ^ 64) (rest : List Nat) :
    read_ipld (fuel + 1) ((write_u64 3 s.length ++ s) ++ rest) = .ok (.string s, rest) := by
  obtain ⟨hd, tl, he, hlo, hhi, harm⟩ := read_len_arm_write 3 s.length h (s ++ rest)
  rw [List.append_assoc, he, List.cons_append]
  simp only [read_ipld, read_u8_cons, except_bind_ok]
  rw [try_read_ipld_group _ hd (by omega) (by omega)]
  repeat rw [if_neg (by omega)]
  rw [if_pos (by omega)]
  have hbase : (3 : Nat) * 32 = 0x60 := by norm_num
  rw [hbase] at harm
  rw [harm]
  simp only [except_bind_ok, read_str]
  rw [read_bytes_append s rest]
  simp [hu]

theorem read_string_write (k : List Nat) (hu : validUtf8 k = true) (h : k.length < 2 ^ 64)
    (rest : List Nat) :
    read_string ((write_u64 3 k.length ++ k) ++ rest) = .ok (k, rest) := by
  obtain ⟨hd, tl, he, hlo, hhi, harm⟩ := read_len_arm_write 3 k.length h (k ++ rest)
  rw [List.append_assoc, he, List.cons_append]
  simp only [read_string, read_u8_cons, except_bind_ok, try_read_string]
  have hbase : (3 : Nat) * 32 = 0x60 := by norm_num
  rw [hbase] at harm
  rw [harm]
  simp only [except_bind_ok, read_str]
  rw [read_bytes_append k rest]
  simp [hu]

theorem read_ipld_write_list (fuel n : Nat) (h : n < 2 ^ 64) (body rest : List Nat) :
    read_ipld (fuel + 1) ((write_u64 4 n ++ body) ++ rest) =
      (read_list_aux (read_ipld fuel) n (body ++ rest) >>= fun p => .ok (.list p.1, p.2)) := by
  obtain ⟨hd, tl, he, hlo, hhi, harm⟩ := read_len_arm_write 4 n h (body ++ rest)
  rw [List.append_assoc, he, List.cons_append]
  simp only [read_ipld, read_u8_cons, except_bind_ok]
  rw [try_read_ipld_group _ hd (by omega) (by omega)]
  repeat rw [if_neg (by omega)]
  rw [if_pos (by omega)]
  have hbase : (4 : Nat) * 32 = 0x80 := by norm_num
  rw [hbase] at harm
  rw [harm]
  simp only [except_bind_ok]
  cases hres : read_list_aux (read_ipld fuel) n (body ++ rest) with
  | error e => simp
  | ok p => cases p with | mk l r => simp

theorem read_ipld_write_map (fuel n : Nat) (h : n < 2 ^ 64) (body rest : List Nat) :
    read_ipld (fuel + 1) ((write_u64 5 n ++ body) ++ rest) =
      (read_map_aux (read_ipld fuel) n .nil (body ++ rest) >>= fun p => .ok (.map p.1, p.2)) := by
  obtain ⟨hd, tl, he, hlo, hhi, harm⟩ := read_len_arm_write 5 n h (body ++ rest)
  rw [List.append_assoc, he, List.cons_append]
  simp only [read_ipld, read_u8_cons, except_bind_ok]
  rw [try_read_ipld_group _ hd (by omega) (by omega)]
  repeat rw [if_neg (by omega)]
  rw [if_pos (by omega)]
  have hbase : (5 : Nat) * 32 = 0xa0 := by norm_num
  rw [hbase] at harm
  rw [harm]
  simp only [except_bind_ok]
  cases hres : read_map_aux (read_ipld fuel) n .nil (body ++ rest) with
  | error e => simp
  | ok p => cases p with | mk m r => simp

theorem write_u64_2_1byte (v : Nat) (h1 : 24 ≤ v) (h2 : v ≤ 255) :
    write_u64 2 v = [0x58, v] := by
  rcases write_u64_cases 2 v with ⟨ha, e⟩ | ⟨ha, hb, e⟩ | ⟨ha, hb, e⟩ | ⟨ha, hb, e⟩ | ⟨ha, e⟩ <;>
    first
    | omega
    | simp [e]

theorem read_ipld_write_link (fuel : Nat) (cb : List Nat) (h1 : 23 ≤ cb.length)
    (h2 : cb.length ≤ 254) (rest : List Nat) :
    read_ipld (fuel + 1) ((write_tag 42 ++ write_u64 2 (cb.length + 1) ++ 0 :: cb) ++ rest) =
      .ok (.link ⟨cb⟩, rest) := by
  have htag : write_tag 42 = [0xd8, 42] := rfl
  rw [htag, write_u64_2_1byte (cb.length + 1) (by omega) (by omega)]
  simp only [List.cons_append, List.nil_append, read_ipld, read_u8_cons, except_bind_ok]
  simp only [try_read_ipld]
  norm_num
  simp only [read_link, read_u8_cons, except_bind_ok]
  norm_num
  rw [show (0 : Nat) :: (cb ++ rest) = (0 :: cb) ++ rest from rfl]
  rw [read_bytes_exact (cb.length + 1) (0 :: cb) rest (by simp)]
  simp [Cid.tryFrom]

/-! ## Float cast lemmas -/

theorem bitlenAux_zero (f : Nat) : bitlenAux f 0 = 0 := by
  cases f <;> simp [bitlenAux]

theorem bitlenAux_spec (fuel : Nat) :
    ∀ n, n ≠ 0 → n < 2 ^ fuel →
      2 ^ (bitlenAux fuel n - 1) ≤ n ∧ n < 2 ^ bitlenAux fuel n := by
  induction fuel with
  | zero => intro n h0 hlt; omega
  | succ f ih =>
      intro n h0 hlt
      simp only [bitlenAux, if_neg h0]
      by_cases hn : n / 2 = 0
      · have hone : n = 1 := by omega
        subst hone
        rw [show (1 : Nat) / 2 = 0 from rfl, bitlenAux_zero]
        norm_num
      · have hp : (2 : Nat) ^ (f + 1) = 2 * 2 ^ f := by rw [pow_succ]; ring
        have h2 : n / 2 < 2 ^ f := by omega
        obtain ⟨l, u⟩ := ih (n / 2) hn h2
        have hb1 : 1 ≤ bitlenAux f (n / 2) := by
          by_contra hb
          have : bitlenAux f (n / 2) = 0 := by omega
          rw [this] at u
          simp at u
          omega
        constructor
        · have : 2 ^ (bitlenAux f (n / 2) + 1 - 1) = 2 * 2 ^ (bitlenAux f (n / 2) - 1) := by
            rw [← pow_succ']
            congr 1
            omega
          rw [this]
          omega
        · rw [pow_succ]
          omega

theorem bitlen_spec (n : Nat) (h0 : n ≠ 0) (h : n < 2 ^ 64) :
    2 ^ (bitlen n - 1) ≤ n ∧ n < 2 ^ bitlen n :=
  bitlenAux_spec 64 n h0 h

theorem bitlen_le (n k : Nat) (h0 : n ≠ 0) (hk : k ≤ 64) (h : n < 2 ^ k) : bitlen n ≤ k := by
  obtain ⟨l, _⟩ := bitlen_spec n h0 (lt_of_lt_of_le h (Nat.pow_le_pow_right (by omega) hk))
  by_contra hgt
  have : 2 ^ k ≤ 2 ^ (bitlen n - 1) := Nat.pow_le_pow_right (by omega) (by omega)
  omega

/-- The f64 bit pattern is its three fields. -/
theorem f64_decompose (b : Nat) (h : b < 2 ^ 64) :
    b = f64Sign b * 2 ^ 63 + f64Exp b * 2 ^ 52 + f64Man b ∧
      f64Sign b ≤ 1 ∧ f64Exp b < 2 ^ 11 ∧ f64Man b < 2 ^ 52 := by
  unfold f64Sign f64Exp f64Man
  omega

/-- `mkF32` keeps the sign bit on top of 31 low bits. -/
theorem mkF32_bounds (s q : Nat) (t : Int) :
    s * 2 ^ 31 ≤ mkF32 s q t ∧ mkF32 s q t < s * 2 ^ 31 + 2 ^ 31 := by
  simp only [mkF32]
  split_ifs with h1 h2 h3 h4 <;> omega

theorem f64toF32_bounds (b : Nat) (hb : b < 2 ^ 64) :
    f64Sign b * 2 ^ 31 ≤ f64toF32 b ∧ f64toF32 b < f64Sign b * 2 ^ 31 + 2 ^ 31 := by
  obtain ⟨hdec, hs, he, hm⟩ := f64_decompose b hb
  simp only [f64toF32]
  split_ifs with h1 h2 h3 <;> first
    | omega
    | (constructor
       · exact (mkF32_bounds _ _ _).1
       · exact (mkF32_bounds _ _ _).2)

theorem f64toF32_lt (b : Nat) (hb : b < 2 ^ 64) : f64toF32 b < 2 ^ 32 := by
  obtain ⟨h1, h2⟩ := f64toF32_bounds b hb
  obtain ⟨_, hs, _, _⟩ := f64_decompose b hb
  omega

theorem f32Sign_f64toF32 (b : Nat) (hb : b < 2 ^ 64) : f32Sign (f64toF32 b) = f64Sign b := by
  obtain ⟨h1, h2⟩ := f64toF32_bounds b hb
  obtain ⟨_, hs, _, _⟩ := f64_decompose b hb
  unfold f32Sign
  omega

/-- Widening splits into sign and 63 low bits, with the exponent field as
each branch dictates. -/
theorem f32toF64_shape (g : Nat) (hg : g < 2 ^ 32) :
    f32Sign g * 2 ^ 63 ≤ f32toF64 g ∧ f32toF64 g < f32Sign g * 2 ^ 63 + 2 ^ 63 := by
  have hs : f32Sign g ≤ 1 := by unfold f32Sign; omega
  have he : f32Exp g < 2 ^ 8 := by unfold f32Exp; omega
  have hm : f32Man g < 2 ^ 23 := by unfold f32Man; omega
  simp only [f32toF64]
  split_ifs with h1 h2 h3
  · omega
  · omega
  · -- subnormal: bound the renormalized mantissa
    have hj : bitlen (f32Man g) ≤ 23 := bitlen_le _ 23 h3 (by omega) hm
    obtain ⟨l, u⟩ := bitlen_spec (f32Man g) h3 (by omega)
    have hj1 : 1 ≤ bitlen (f32Man g) := by
      by_contra hb
      have h0 : bitlen (f32Man g) = 0 := by omega
      rw [h0] at u
      simp at u
      exact h3 u
    have hb : bitlen (f32Man g) = bitlen (f32Man g) - 1 + 1 := by omega
    set j := bitlen (f32Man g) - 1 with hjdef
    have hu' : f32Man g < 2 ^ (j + 1) := by rw [hb] at u; exact u
    have hpow : (2 : Nat) ^ (j + 1) = 2 ^ j + 2 ^ j := by rw [pow_succ]; omega
    have hmb : f32Man g - 2 ^ j < 2 ^ j := by omega
    have hfit : (f32Man g - 2 ^ j) * 2 ^ (52 - j) < 2 ^ 52 := by
      have ha : (f32Man g - 2 ^ j) * 2 ^ (52 - j) < 2 ^ j * 2 ^ (52 - j) :=
        mul_lt_mul_of_pos_right hmb (pow_pos (by norm_num) _)
      have hc : (2 : Nat) ^ j * 2 ^ (52 - j) = 2 ^ 52 := by
        rw [← pow_add]
        congr 1
        omega
      omega
    have hexp : (j + 874) * 2 ^ 52 ≤ 896 * 2 ^ 52 :=
      Nat.mul_le_mul (by omega) (le_refl _)
    constructor <;> omega
  · omega

theorem f64Sign_f32toF64 (g : Nat) (hg : g < 2 ^ 32) : f64Sign (f32toF64 g) = f32Sign g := by
  obtain ⟨h1, h2⟩ := f32toF64_shape g hg
  have hs : f32Sign g ≤ 1 := by unfold f32Sign; omega
  unfold f64Sign
  omega

theorem f32toF64_lt (g : Nat) (hg : g < 2 ^ 32) : f32toF64 g < 2 ^ 64 := by
  obtain ⟨h1, h2⟩ := f32toF64_shape g hg
  have hs : f32Sign g ≤ 1 := by unfold f32Sign; omega
  omega

/-- Field behaviour of widening: an f32 with exponent field 0xff widens to
exponent field 0x7ff carrying the shifted mantissa; any other f32 widens to
a finite f64; and a widened value is a zero only from a zero, in which case
it is exactly the sign bit. -/
theorem f32toF64_fields (g : Nat) (hg : g < 2 ^ 32) :
    (f32Exp g = 0xff → f64Exp (f32toF64 g) = 0x7ff ∧ f64Man (f32toF64 g) = f32Man g * 2 ^ 29) ∧
    (f32Exp g ≠ 0xff → f64Exp (f32toF64 g) ≠ 0x7ff) ∧
    (isZero64 (f32toF64 g) = true → f32toF64 g = f32Sign g * 2 ^ 63) := by
  have hs : f32Sign g ≤ 1 := by unfold f32Sign; omega
  have he : f32Exp g < 2 ^ 8 := by unfold f32Exp; omega
  have hm : f32Man g < 2 ^ 23 := by unfold f32Man; omega
  unfold f32toF64
  by_cases h1 : f32Exp g = 0xff
  · rw [if_pos h1]
    refine ⟨fun _ => ⟨?_, ?_⟩, fun hc => absurd h1 hc, fun hz => ?_⟩
    · unfold f64Exp; omega
    · unfold f64Man; omega
    · simp only [isZero64, Bool.and_eq_true, decide_eq_true_eq] at hz
      unfold f64Exp at hz
      omega
  · rw [if_neg h1]
    by_cases h2 : f32Exp g = 0
    · rw [if_pos h2]
      by_cases h3 : f32Man g = 0
      · rw [if_pos h3]
        refine ⟨fun hc => absurd hc h1, fun _ => ?_, fun _ => rfl⟩
        unfold f64Exp
        omega
      · rw [if_neg h3]
        have hj : bitlen (f32Man g) ≤ 23 := bitlen_le _ 23 h3 (by omega) hm
        obtain ⟨l, u⟩ := bitlen_spec (f32Man g) h3 (by omega)
        have hj1 : 1 ≤ bitlen (f32Man g) := by
          by_contra hb
          have h0 : bitlen (f32Man g) = 0 := by omega
          rw [h0] at u
          simp at u
          exact h3 u
        have hb : bitlen (f32Man g) = bitlen (f32Man g) - 1 + 1 := by omega
        set j := bitlen (f32Man g) - 1 with hjdef
        have hu' : f32Man g < 2 ^ (j + 1) := by rw [hb] at u; exact u
        have hpow : (2 : Nat) ^ (j + 1) = 2 ^ j + 2 ^ j := by rw [pow_succ]; omega
        have hmb : f32Man g - 2 ^ j < 2 ^ j := by omega
        have hfit : (f32Man g - 2 ^ j) * 2 ^ (52 - j) < 2 ^ 52 := by
          have ha : (f32Man g - 2 ^ j) * 2 ^ (52 - j) < 2 ^ j * 2 ^ (52 - j) :=
            mul_lt_mul_of_pos_right hmb (pow_pos (by norm_num) _)
          have hc : (2 : Nat) ^ j * 2 ^ (52 - j) = 2 ^ 52 := by
            rw [← pow_add]
            congr 1
            omega
          omega
        have hexp : (j + 874) * 2 ^ 52 ≤ 896 * 2 ^ 52 :=
          Nat.mul_le_mul (by omega) (le_refl _)
        have hexpl : 874 * 2 ^ 52 ≤ (j + 874) * 2 ^ 52 :=
          Nat.mul_le_mul (by omega) (le_refl _)
        have hfe : f64Exp (f32Sign g * 2 ^ 63 + (j + 874) * 2 ^ 52 +
            (f32Man g - 2 ^ j) * 2 ^ (52 - j)) = j + 874 := by
          unfold f64Exp
          omega
        refine ⟨fun hc => absurd hc h1, fun _ => ?_, fun hz => ?_⟩
        · rw [hfe]; omega
        · simp only [isZero64, Bool.and_eq_true, decide_eq_true_eq] at hz
          rw [hfe] at hz
          omega
    · rw [if_neg h2]
      have hfe : f64Exp (f32Sign g * 2 ^ 63 + (f32Exp g + 896) * 2 ^ 52 +
          f32Man g * 2 ^ 29) = f32Exp g + 896 := by
        unfold f64Exp
        omega
      refine ⟨fun hc => absurd hc h1, fun _ => ?_, fun hz => ?_⟩
      · rw [hfe]; omega
      · simp only [isZero64, Bool.and_eq_true, decide_eq_true_eq] at hz
        rw [hfe] at hz
        omega

/-- Narrowing a non-finite f64 keeps its class and sign. -/
theorem f64toF32_nonfinite (b : Nat) (hb : b < 2 ^ 64) :
    (isInf64 b = true → isInf32 (f64toF32 b) = true ∧ f32Sign (f64toF32 b) = f64Sign b) ∧
    (isNaN64 b = true → isNaN32 (f64toF32 b) = true) := by
  obtain ⟨hdec, hs, he, hm⟩ := f64_decompose b hb
  constructor
  · intro h
    simp only [isInf64, Bool.and_eq_true, decide_eq_true_eq] at h
    unfold f64toF32
    rw [if_pos h.1, if_pos h.2]
    constructor
    · simp only [isInf32, Bool.and_eq_true, decide_eq_true_eq]
      unfold f32Exp f32Man
      omega
    · unfold f32Sign
      omega
  · intro h
    simp only [isNaN64, Bool.and_eq_true, decide_eq_true_eq] at h
    unfold f64toF32
    rw [if_pos h.1, if_neg h.2]
    simp only [isNaN32, Bool.and_eq_true, decide_eq_true_eq]
    unfold f32Exp f32Man
    omega

/-- When the narrowed value widens back IEEE-equal to a finite f64, it
widens back to exactly the same bit pattern, and the narrowed value is
neither a NaN nor an infinity. -/
theorem widen_narrow_eq (b : Nat) (hb : b < 2 ^ 64) (hfin : isFinite64 b = true)
    (heq : fpEq64 (f32toF64 (f64toF32 b)) b = true) :
    f32toF64 (f64toF32 b) = b ∧ isNaN32 (f64toF32 b) = false ∧
      isInf32 (f64toF32 b) = false := by
  have hglt : f64toF32 b < 2 ^ 32 := f64toF32_lt b hb
  obtain ⟨finf, fne, fzero⟩ := f32toF64_fields (f64toF32 b) hglt
  obtain ⟨hdec, hs, he, hm⟩ := f64_decompose b hb
  have hsg : f32Sign (f64toF32 b) = f64Sign b := f32Sign_f64toF32 b hb
  simp only [isFinite64, ne_eq, decide_not, Bool.not_eq_true', decide_eq_false_iff_not] at hfin
  unfold fpEq64 at heq
  split_ifs at heq with hn hz
  · simp only [Bool.and_eq_true] at hz
    have hza := fzero hz.1
    have hza' : f64Exp (f32toF64 (f64toF32 b)) = 0 ∧ f64Man (f32toF64 (f64toF32 b)) = 0 := by
      simpa [isZero64, Bool.and_eq_true, decide_eq_true_eq] using hz.1
    have hzb : f64Exp b = 0 ∧ f64Man b = 0 := by
      simpa [isZero64, Bool.and_eq_true, decide_eq_true_eq] using hz.2
    have hexp0 : f32Exp (f64toF32 b) ≠ 0xff := by
      intro hc
      have h7 := (finf hc).1
      omega
    refine ⟨?_, ?_, ?_⟩
    · rw [hza, hsg]
      omega
    · simp [isNaN32, hexp0]
    · simp [isInf32, hexp0]
  · have hab : f32toF64 (f64toF32 b) = b := by simpa using heq
    have hexp0 : f32Exp (f64toF32 b) ≠ 0xff := by
      intro hc
      obtain ⟨h7, _⟩ := finf hc
      rw [hab] at h7
      exact hfin h7
    exact ⟨hab, by simp [isNaN32, hexp0], by simp [isInf32, hexp0]⟩

theorem encode_f64_f32_path (b : Nat) (hb : b < 2 ^ 64) (hfin : isFinite64 b = true)
    (heq : fpEq64 (f32toF64 (f64toF32 b)) b = true) :
    encode_f64 b = 0xfa :: be32 (f64toF32 b) := by
  obtain ⟨hab, hnan, hinf⟩ := widen_narrow_eq b hb hfin heq
  unfold encode_f64
  rw [if_pos (by simp [hfin, heq])]
  unfold encode_f32
  rw [if_neg (by simp [hinf]), if_neg (by simp [hnan])]

theorem encode_f64_f64_path (b : Nat) (hfin : isFinite64 b = true)
    (heq : fpEq64 (f32toF64 (f64toF32 b)) b = false) :
    encode_f64 b = 0xfb :: be64 b := by
  unfold encode_f64
  rw [if_neg (by simp [hfin, heq])]

theorem read_ipld_0xfa (fuel g : Nat) (hg : g < 2 ^ 32) (rest : List Nat) :
    read_ipld (fuel + 1) (0xfa :: (be32 g ++ rest)) = .ok (.float (f32toF64 g), rest) := by
  simp only [read_ipld, read_u8_cons, except_bind_ok]
  simp only [try_read_ipld]
  norm_num
  simp only [read_f32]
  rw [read_u32_be g hg rest]
  simp

theorem read_ipld_0xfb (fuel b : Nat) (hb : b < 2 ^ 64) (rest : List Nat) :
    read_ipld (fuel + 1) (0xfb :: (be64 b ++ rest)) = .ok (.float b, rest) := by
  simp only [read_ipld, read_u8_cons, except_bind_ok]
  simp only [try_read_ipld]
  norm_num
  simp only [read_f64]
  rw [read_u64_be b hb rest]
  simp

theorem read_ipld_write_float (fuel b : Nat) (hb : b < 2 ^ 64) (hfin : isFinite64 b = true)
    (rest : List Nat) :
    read_ipld (fuel + 1) (encode_f64 b ++ rest) = .ok (.float b, rest) := by
  by_cases heq : fpEq64 (f32toF64 (f64toF32 b)) b = true
  · obtain ⟨hab, _, _⟩ := widen_narrow_eq b hb hfin heq
    rw [encode_f64_f32_path b hb hfin heq]
    simp only [List.cons_append]
    rw [read_ipld_0xfa fuel (f64toF32 b) (f64toF32_lt b hb) rest, hab]
  · have heq' : fpEq64 (f32toF64 (f64toF32 b)) b = false := by simpa using heq
    rw [encode_f64_f64_path b hfin heq']
    simp only [List.cons_append]
    rw [read_ipld_0xfb fuel b hb rest]

/-! ## Key order and map insertion -/

def IpldList.inductionOn {motive : IpldList → Prop} (l : IpldList) (hnil : motive .nil)
    (hcons : ∀ v t, motive t → motive (.cons v t)) : motive l :=
  match l with
  | .nil => hnil
  | .cons v t => hcons v t (IpldList.inductionOn t hnil hcons)

def IpldMap.inductionOn {motive : IpldMap → Prop} (m : IpldMap) (hnil : motive .nil)
    (hcons : ∀ k v t, motive t → motive (.cons k v t)) : motive m :=
  match m with
  | .nil => hnil
  | .cons k v t => hcons k v t (IpldMap.inductionOn t hnil hcons)

theorem keyLt_cons_iff (x y : Nat) (xs ys : List Nat) :
    keyLt (x :: xs) (y :: ys) = true ↔ x < y ∨ (x = y ∧ keyLt xs ys = true) := by
  have h : keyLt (x :: xs) (y :: ys) =
      if x < y then true else if x = y then keyLt xs ys else false := rfl
  rw [h]
  split_ifs with h1 h2
  · simp [h1]
  · simp [h1, h2]
  · simp [h1, h2]

theorem keyLt_irrefl (k : List Nat) : keyLt k k = false := by
  induction k with
  | nil => rfl
  | cons a t ih => simp [keyLt, ih]

theorem keyLt_trans (a : List Nat) :
    ∀ b c, keyLt a b = true → keyLt b c = true → keyLt a c = true := by
  induction a with
  | nil =>
      intro b c h1 h2
      cases b with
      | nil => simp [keyLt] at h1
      | cons y ys =>
          cases c with
          | nil => simp [keyLt] at h2
          | cons z zs => rfl
  | cons x xs ih =>
      intro b c h1 h2
      cases b with
      | nil => simp [keyLt] at h1
      | cons y ys =>
          cases c with
          | nil => simp [keyLt] at h2
          | cons z zs =>
              rw [keyLt_cons_iff] at h1 h2 ⊢
              rcases h1 with h1 | ⟨he1, h1⟩ <;> rcases h2 with h2 | ⟨he2, h2⟩
              · left; omega
              · left; omega
              · left; omega
              · right
                exact ⟨by omega, ih ys zs h1 h2⟩

theorem keyLt_ne (a b : List Nat) (h : keyLt a b = true) : a ≠ b := by
  intro he
  subst he
  rw [keyLt_irrefl] at h
  cases h

theorem keyLt_asymm (a b : List Nat) (h : keyLt a b = true) : keyLt b a = false := by
  by_contra hc
  have hba : keyLt b a = true := by simpa using hc
  have := keyLt_trans a b a h hba
  rw [keyLt_irrefl] at this
  cases this

/-- Concatenation of map spines. -/
def IpldMap.append : IpldMap → IpldMap → IpldMap
  | .nil, m => m
  | .cons k v t, m => .cons k v (IpldMap.append t m)

/-- All keys of `m` are strictly below `k`. -/
def keysBelow (m : IpldMap) (k : List Nat) : Bool :=
  match m with
  | .nil => true
  | .cons k' _ t => keyLt k' k && keysBelow t k

theorem IpldMap.append_nil (m : IpldMap) : m.append .nil = m := by
  induction m using IpldMap.inductionOn with
  | hnil => rfl
  | hcons k v t ih => simp [IpldMap.append, ih]

theorem insertKV_below (m : IpldMap) (k : List Nat) (v : Ipld) (h : keysBelow m k = true) :
    insertKV m k v = m.append (.cons k v .nil) := by
  induction m using IpldMap.inductionOn with
  | hnil => rfl
  | hcons k' v' t ih =>
      simp only [keysBelow, Bool.and_eq_true] at h
      simp only [insertKV, IpldMap.append]
      rw [if_neg, if_neg]
      · rw [ih h.2]
      · exact (keyLt_ne k' k h.1).symm
      · simp [keyLt_asymm k' k h.1]

theorem keysBelow_append (m : IpldMap) (k k2 : List Nat) (v : Ipld)
    (hm : keysBelow m k2 = true) (hk : keyLt k k2 = true) :
    keysBelow (m.append (.cons k v .nil)) k2 = true := by
  induction m using IpldMap.inductionOn with
  | hnil => simp [IpldMap.append, keysBelow, hk]
  | hcons k' v' t ih =>
      simp only [keysBelow, Bool.and_eq_true] at hm
      simp only [IpldMap.append, keysBelow, Bool.and_eq_true]
      exact ⟨hm.1, ih hm.2⟩

theorem keysBelow_mono (m : IpldMap) (k k2 : List Nat) (hm : keysBelow m k = true)
    (hk : keyLt k k2 = true) : keysBelow m k2 = true := by
  induction m using IpldMap.inductionOn with
  | hnil => rfl
  | hcons k' v' t ih =>
      simp only [keysBelow, Bool.and_eq_true] at hm ⊢
      exact ⟨keyLt_trans k' k k2 hm.1 hk, ih hm.2⟩

theorem IpldMap.append_assoc (a b c : IpldMap) :
    (a.append b).append c = a.append (b.append c) := by
  induction a using IpldMap.inductionOn with
  | hnil => rfl
  | hcons k v t ih => simp [IpldMap.append, ih]

/-! ## Encoder decomposition -/

theorem encode_ipld_list_cons (v : Ipld) (t : IpldList) (es : List Nat)
    (h : encode_ipld_list (.cons v t) = .ok es) :
    ∃ e1 e2, encode_ipld v = .ok e1 ∧ encode_ipld_list t = .ok e2 ∧ es = e1 ++ e2 := by
  simp only [encode_ipld_list] at h
  cases h1 : encode_ipld v with
  | error e => rw [h1] at h; simp at h
  | ok e1 =>
      rw [h1] at h
      simp only [except_bind_ok] at h
      cases h2 : encode_ipld_list t with
      | error e => rw [h2] at h; simp at h
      | ok e2 =>
          rw [h2] at h
          simp only [except_bind_ok, Except.ok.injEq] at h
          exact ⟨e1, e2, rfl, rfl, h.symm⟩

theorem encode_ipld_map_cons (k : List Nat) (v : Ipld) (t : IpldMap) (es : List Nat)
    (h : encode_ipld_map (.cons k v t) = .ok es) :
    ∃ e1 e2, encode_ipld v = .ok e1 ∧ encode_ipld_map t = .ok e2 ∧
      es = (write_u64 3 k.length ++ k) ++ e1 ++ e2 := by
  simp only [encode_ipld_map] at h
  cases h1 : encode_ipld v with
  | error e => rw [h1] at h; simp at h
  | ok e1 =>
      rw [h1] at h
      simp only [except_bind_ok] at h
      cases h2 : encode_ipld_map t with
      | error e => rw [h2] at h; simp at h
      | ok e2 =>
          rw [h2] at h
          simp only [except_bind_ok, Except.ok.injEq] at h
          exact ⟨e1, e2, rfl, rfl, h.symm⟩

theorem encode_ipld_list_eq (l : IpldList) (es : List Nat)
    (h : encode_ipld (.list l) = .ok es) :
    ∃ body, encode_ipld_list l = .ok body ∧ es = write_u64 4 l.length ++ body := by
  simp only [encode_ipld] at h
  cases h1 : encode_ipld_list l with
  | error e => rw [h1] at h; simp at h
  | ok body =>
      rw [h1] at h
      simp only [except_bind_ok, Except.ok.injEq] at h
      exact ⟨body, rfl, h.symm⟩

theorem encode_ipld_map_eq (m : IpldMap) (es : List Nat)
    (h : encode_ipld (.map m) = .ok es) :
    ∃ body, encode_ipld_map m = .ok body ∧ es = write_u64 5 m.length ++ body := by
  simp only [encode_ipld] at h
  cases h1 : encode_ipld_map m with
  | error e => rw [h1] at h; simp at h
  | ok body =>
      rw [h1] at h
      simp only [except_bind_ok, Except.ok.injEq] at h
      exact ⟨body, rfl, h.symm⟩

theorem encode_f64_length_pos (b : Nat) : 1 ≤ (encode_f64 b).length := by
  unfold encode_f64 encode_f32
  split_ifs <;> simp [be32, be64]

theorem encode_nonempty (v : Ipld) (e : List Nat) (h : encode_ipld v = .ok e) :
    1 ≤ e.length := by
  cases v with
  | null =>
      have he : [0xf6] = e := by simpa [encode_ipld, write_null] using h
      rw [← he]
      simp
  | bool b =>
      cases b with
      | false =>
          have he : [0xf4] = e := by simpa [encode_ipld] using h
          rw [← he]
          simp
      | true =>
          have he : [0xf5] = e := by simpa [encode_ipld] using h
          rw [← he]
          simp
  | integer i =>
      unfold encode_ipld encode_i128 at h
      split_ifs at h <;> simp only [Except.ok.injEq] at h <;> (rw [← h]; apply write_u64_length_pos)
  | float b =>
      have he : encode_f64 b = e := by simpa [encode_ipld] using h
      rw [← he]
      exact encode_f64_length_pos b
  | bytes bs =>
      have he : write_u64 2 bs.length ++ bs = e := by simpa [encode_ipld] using h
      rw [← he]
      have := write_u64_length_pos 2 bs.length
      simp only [List.length_append]
      omega
  | string s =>
      have he : write_u64 3 s.length ++ s = e := by simpa [encode_ipld] using h
      rw [← he]
      have := write_u64_length_pos 3 s.length
      simp only [List.length_append]
      omega
  | list l =>
      obtain ⟨body, _, he⟩ := encode_ipld_list_eq l e h
      rw [he]
      have := write_u64_length_pos 4 l.length
      simp only [List.length_append]
      omega
  | map m =>
      obtain ⟨body, _, he⟩ := encode_ipld_map_eq m e h
      rw [he]
      have := write_u64_length_pos 5 m.length
      simp only [List.length_append]
      omega
  | link c =>
      have he : write_tag 42 ++ write_u64 2 (c.bytes.length + 1) ++ 0 :: c.bytes = e := by
        simpa [encode_ipld] using h
      rw [← he]
      simp only [List.length_append, write_tag]
      have := write_u64_length_pos 6 42
      omega

theorem valid_map_cons (k : List Nat) (v : Ipld) (t : IpldMap)
    (h : valid_map (.cons k v t) = true) :
    validUtf8 k = true ∧ k.length < 2 ^ 64 ∧ valid v = true ∧ valid_map t = true ∧
      (∀ k2 v2 t2, t = IpldMap.cons k2 v2 t2 → keyLt k k2 = true) := by
  cases t with
  | nil =>
      have h' : (validUtf8 k && decide (k.length < 2 ^ 64) && valid v &&
          valid_map .nil && true) = true := h
      simp only [Bool.and_true, Bool.and_eq_true, decide_eq_true_eq] at h'
      obtain ⟨⟨⟨h1, h2⟩, h3⟩, h4⟩ := h'
      refine ⟨h1, h2, h3, h4, ?_⟩
      intro k2 v2 t2 ht
      cases ht
  | cons k' v' t' =>
      have h' : (validUtf8 k && decide (k.length < 2 ^ 64) && valid v &&
          valid_map (.cons k' v' t') && keyLt k k') = true := h
      simp only [Bool.and_eq_true, decide_eq_true_eq] at h'
      obtain ⟨⟨⟨⟨h1, h2⟩, h3⟩, h4⟩, h5⟩ := h'
      refine ⟨h1, h2, h3, h4, ?_⟩
      intro k2 v2 t2 ht
      injection ht with hk hv ht'
      subst hk
      exact h5

/-! ## The round trip -/

theorem read_list_aux_encode (fuel : Nat)
    (IH : ∀ v e, valid v = true → encode_ipld v = .ok e → e.length ≤ fuel →
      ∀ rest, read_ipld fuel (e ++ rest) = .ok (v, rest)) (l : IpldList) :
    ∀ es, valid_list l = true → encode_ipld_list l = .ok es → es.length ≤ fuel →
    ∀ rest, read_list_aux (read_ipld fuel) l.length (es ++ rest) = .ok (l, rest) := by
  induction l using IpldList.inductionOn with
  | hnil =>
      intro es hv he hlen rest
      have he' : ([] : List Nat) = es := by simpa [encode_ipld_list] using he
      rw [← he']
      simp [IpldList.length, read_list_aux]
  | hcons v t ihl =>
      intro es hv he hlen rest
      obtain ⟨e1, e2, h1, h2, he'⟩ := encode_ipld_list_cons v t es he
      subst he'
      simp only [List.length_append] at hlen
      simp only [valid_list, Bool.and_eq_true] at hv
      simp only [IpldList.length, read_list_aux, List.append_assoc]
      rw [IH v e1 hv.1 h1 (by omega) (e2 ++ rest)]
      simp only [except_bind_ok]
      rw [ihl e2 hv.2 h2 (by omega) rest]
      simp

theorem read_map_aux_encode (fuel : Nat)
    (IH : ∀ v e, valid v = true → encode_ipld v = .ok e → e.length ≤ fuel →
      ∀ rest, read_ipld fuel (e ++ rest) = .ok (v, rest)) (m : IpldMap) :
    ∀ es acc, valid_map m = true → encode_ipld_map m = .ok es → es.length ≤ fuel →
    (∀ k2 v2 t2, m = IpldMap.cons k2 v2 t2 → keysBelow acc k2 = true) →
    ∀ rest, read_map_aux (read_ipld fuel) m.length acc (es ++ rest) =
      .ok (acc.append m, rest) := by
  induction m using IpldMap.inductionOn with
  | hnil =>
      intro es acc hv he hlen hbelow rest
      have he' : ([] : List Nat) = es := by simpa [encode_ipld_map] using he
      rw [← he']
      simp [IpldMap.length, read_map_aux, IpldMap.append_nil]
  | hcons k v t ihm =>
      intro es acc hv he hlen hbelow rest
      obtain ⟨e1, e2, h1, h2, he'⟩ := encode_ipld_map_cons k v t es he
      subst he'
      obtain ⟨hku, hkl, hvv, hvt, hsorted⟩ := valid_map_cons k v t hv
      simp only [List.length_append] at hlen
      simp only [IpldMap.length, read_map_aux]
      rw [List.append_assoc, List.append_assoc]
      rw [read_string_write k hku hkl (e1 ++ (e2 ++ rest))]
      simp only [except_bind_ok]
      rw [IH v e1 hvv h1 (by omega) (e2 ++ rest)]
      simp only [except_bind_ok]
      have hacc : keysBelow acc k = true := hbelow k v t rfl
      rw [insertKV_below acc k v hacc]
      have hbelow' : ∀ k2 v2 t2, t = IpldMap.cons k2 v2 t2 →
          keysBelow (acc.append (.cons k v .nil)) k2 = true := by
        intro k2 v2 t2 ht
        have hk2 := hsorted k2 v2 t2 ht
        exact keysBelow_append acc k k2 v (keysBelow_mono acc k k2 hacc hk2) hk2
      rw [ihm e2 (acc.append (.cons k v .nil)) hvt h2 (by omega) hbelow' rest]
      rw [IpldMap.append_assoc]
      rfl

/-- Decoding inverts encoding, given fuel at least the encoding's length:
each nesting level consumes at least one byte of the encoding. -/
theorem read_ipld_encode (fuel : Nat) :
    ∀ (v : Ipld) (e : List Nat), valid v = true → encode_ipld v = .ok e →
    e.length ≤ fuel → ∀ rest, read_ipld fuel (e ++ rest) = .ok (v, rest) := by
  induction fuel with
  | zero =>
      intro v e hv he hlen rest
      have := encode_nonempty v e he
      omega
  | succ fuel ih =>
      intro v e hv he hlen rest
      cases v with
      | null =>
          have he' : [0xf6] = e := by simpa [encode_ipld, write_null] using he
          rw [← he']
          simp only [List.cons_append, List.nil_append, read_ipld, read_u8_cons, except_bind_ok]
          simp [try_read_ipld]
      | bool b =>
          cases b with
          | false =>
              have he' : [0xf4] = e := by simpa [encode_ipld] using he
              rw [← he']
              simp only [List.cons_append, List.nil_append, read_ipld, read_u8_cons,
                except_bind_ok]
              simp [try_read_ipld]
          | true =>
              have he' : [0xf5] = e := by simpa [encode_ipld] using he
              rw [← he']
              simp only [List.cons_append, List.nil_append, read_ipld, read_u8_cons,
                except_bind_ok]
              simp [try_read_ipld]
      | integer i =>
          unfold encode_ipld encode_i128 at he
          split_ifs at he with h1 h2 h3
          · injection he with he
            rw [← he, read_ipld_write_int1 fuel]
            · simp only [Except.ok.injEq, Prod.mk.injEq]
              refine ⟨?_, trivial⟩
              congr 1
              omega
            · omega
          · injection he with he
            rw [← he, read_ipld_write_int0 fuel]
            · simp only [Except.ok.injEq, Prod.mk.injEq]
              refine ⟨?_, trivial⟩
              congr 1
              omega
            · omega
      | float b =>
          simp only [valid, Bool.and_eq_true, decide_eq_true_eq] at hv
          have he' : encode_f64 b = e := by simpa [encode_ipld] using he
          rw [← he']
          exact read_ipld_write_float fuel b hv.1 hv.2 rest
      | bytes bs =>
          simp only [valid, Bool.and_eq_true, decide_eq_true_eq] at hv
          have he' : write_u64 2 bs.length ++ bs = e := by simpa [encode_ipld] using he
          rw [← he']
          exact read_ipld_write_bytes fuel bs hv.1 rest
      | string s =>
          simp only [valid, Bool.and_eq_true, decide_eq_true_eq] at hv
          have he' : write_u64 3 s.length ++ s = e := by simpa [encode_ipld] using he
          rw [← he']
          exact read_ipld_write_string fuel s hv.1 hv.2 rest
      | list l =>
          obtain ⟨body, hb, he'⟩ := encode_ipld_list_eq l e he
          subst he'
          simp only [valid, Bool.and_eq_true, decide_eq_true_eq] at hv
          simp only [List.length_append] at hlen
          have hw := write_u64_length_pos 4 l.length
          rw [read_ipld_write_list fuel l.length hv.2 body rest]
          rw [read_list_aux_encode fuel ih l body hv.1 hb (by omega) rest]
          simp
      | map m =>
          obtain ⟨body, hb, he'⟩ := encode_ipld_map_eq m e he
          subst he'
          simp only [valid, Bool.and_eq_true, decide_eq_true_eq] at hv
          simp only [List.length_append] at hlen
          have hw := write_u64_length_pos 5 m.length
          rw [read_ipld_write_map fuel m.length hv.2 body rest]
          rw [read_map_aux_encode fuel ih m body .nil hv.1 hb (by omega)
            (by intro k2 v2 t2 _; rfl) rest]
          simp only [except_bind_ok]
          rfl
      | link c =>
          simp only [valid, Bool.and_eq_true, decide_eq_true_eq] at hv
          have he' : write_tag 42 ++ write_u64 2 (c.bytes.length + 1) ++ 0 :: c.bytes = e := by
            simpa [encode_ipld] using he
          rw [← he']
          exact read_ipld_write_link fuel c.bytes hv.1.2 hv.2 rest

/-- Decoding inverts encoding at the entry point: the fuel is the input
length plus one, which the nesting argument makes inexhaustible. -/
theorem decode_encode_ipld (v : Ipld) (e : List Nat) (hv : valid v = true)
    (he : encode_ipld v = .ok e) : decode_ipld e = .ok (v, []) := by
  unfold decode_ipld
  have h := read_ipld_encode (e.length + 1) v e hv he (by omega) []
  simpa using h

/-! ## Link decoder characterization -/

theorem read_link_bad_tag (t : Nat) (r : List Nat) (h : t ≠ 42) :
    read_link (t :: r) = .error Error.unknownTag := by
  simp only [read_link, read_u8_cons, except_bind_ok]
  rw [if_pos h]
  simp

theorem read_link_bad_width (ty : Nat) (r : List Nat) (h : ty ≠ 0x58) :
    read_link (42 :: ty :: r) = .error Error.unknownTag := by
  simp only [read_link, read_u8_cons, except_bind_ok]
  norm_num
  intro hc
  exact absurd hc h

theorem read_link_zero_len (r : List Nat) :
    read_link (42 :: 0x58 :: 0 :: r) = .error Error.lengthOutOfRange := by
  simp only [read_link, read_u8_cons, except_bind_ok]
  norm_num

theorem read_link_bad_pad (len b : Nat) (content rest : List Nat)
    (hlen : (b :: content).length = len) (hb : b ≠ 0) :
    read_link (42 :: 0x58 :: len :: ((b :: content) ++ rest)) =
      .error (Error.invalidCidByte b) := by
  simp only [List.length_cons] at hlen
  simp only [read_link, read_u8_cons, except_bind_ok]
  norm_num
  rw [if_neg (show ¬len = 0 by omega)]
  rw [show b :: (content ++ rest) = (b :: content) ++ rest from rfl]
  rw [read_bytes_exact len (b :: content) rest (by simp; omega)]
  simp only [except_bind_ok, List.head?_cons, Option.getD_some, List.tail_cons]
  rw [if_neg hb]

theorem read_link_ok (len : Nat) (content rest : List Nat)
    (hlen : content.length + 1 = len) :
    read_link (42 :: 0x58 :: len :: ((0 :: content) ++ rest)) =
      .ok (⟨content⟩, rest) := by
  simp only [read_link, read_u8_cons, except_bind_ok]
  norm_num
  rw [if_neg (show ¬len = 0 by omega)]
  rw [show (0 : Nat) :: (content ++ rest) = (0 :: content) ++ rest from rfl]
  rw [read_bytes_exact len (0 :: content) rest (by simp; omega)]
  simp [Cid.tryFrom]

/-! ## Dispatch characterization for tags and unclaimed bytes -/

theorem try_read_ipld_tag_none (rd : List Nat → Except Error (Ipld × List Nat)) (b : Nat)
    (bytes : List Nat) (h1 : 0xc0 ≤ b) (h2 : b ≤ 0xdb) (h3 : b ≠ 0xd8) :
    try_read_ipld rd b bytes = .ok none := by
  unfold try_read_ipld
  repeat rw [if_neg (by omega)]

theorem read_ipld_unclaimed_tag (fuel b : Nat) (bytes : List Nat)
    (h1 : 0xc0 ≤ b) (h2 : b ≤ 0xdb) (h3 : b ≠ 0xd8) :
    read_ipld (fuel + 1) (b :: bytes) = .error Error.unexpectedCode := by
  simp only [read_ipld, read_u8_cons, except_bind_ok]
  rw [try_read_ipld_tag_none (read_ipld fuel) b bytes h1 h2 h3]
  simp

theorem read_ipld_0xd8 (fuel : Nat) (bytes : List Nat) :
    read_ipld (fuel + 1) (0xd8 :: bytes) =
      (read_link bytes >>= fun p => .ok (.link p.1, p.2)) := by
  simp only [read_ipld, read_u8_cons, except_bind_ok]
  simp only [try_read_ipld]
  norm_num

theorem read_ipld_0xf9 (fuel : Nat) (bytes : List Nat) :
    read_ipld (fuel + 1) (0xf9 :: bytes) = .error Error.unexpectedCode := by
  simp only [read_ipld, read_u8_cons, except_bind_ok]
  simp [try_read_ipld]

/-! ## Claim theorems -/

/-- C1: for every major type and every unsigned magnitude or length in the
64-bit range, the cascading width encoder (`write_u64`, delegating down
through `write_u32`/`write_u16`/`write_u8`) emits exactly the smallest of
the five representations that holds the value — one inline byte for
magnitudes up to 23, else the smallest of the 1/2/4/8-byte explicit-width
forms with codes 24/25/26/27. -/
theorem claim_c1_canonical_width (major v : Nat) (h : v < 2 ^ 64) :
    write_u64 major v = spec_minimal_width major v :=
  write_u64_minimal major v h

/-- C1 witness: the rule evaluated at magnitude 300 (the 2-byte form). -/
theorem claim_c1_canonical_width_witness :
    write_u64 0 300 = spec_minimal_width 0 300 :=
  claim_c1_canonical_width 0 300 (by norm_num)

/-- C2 counterexample: the claim fails as stated. The value
`Link [1, 2, 3]` is representable and contains no float at all, yet
decoding its encoding fails: the encoder emits the inline-length
byte-string form (`0x44`) for the 4-byte identifier payload, and the link
decoder accepts only the 1-byte-explicit-width code `0x58`. -/
theorem claim_c2_round_trip_cex :
    encode_ipld (Ipld.link ⟨[1, 2, 3]⟩) = .ok [0xd8, 0x2a, 0x44, 0x00, 1, 2, 3] ∧
    decode_ipld [0xd8, 0x2a, 0x44, 0x00, 1, 2, 3] = .error Error.unknownTag ∧
    decode_ipld [0xd8, 0x2a, 0x44, 0x00, 1, 2, 3] ≠
      .ok (Ipld.link ⟨[1, 2, 3]⟩, []) := by
  refine ⟨rfl, rfl, ?_⟩
  intro h
  have h2 : (Except.error Error.unknownTag : Except Error (Ipld × List Nat)) =
      .ok (Ipld.link ⟨[1, 2, 3]⟩, []) := h
  exact Except.noConfusion h2

/-- C2 (amended): for every representable value `v` that contains no
non-finite float and in which every link identifier's binary length lies in
[23, 254] (so the byte-string length field takes the 1-byte-width form the
link decoder requires — see `valid`), decoding the bytes produced by
encoding `v` yields exactly `v` with no input left over. -/
theorem claim_c2_round_trip (v : Ipld) (e : List Nat) (hv : valid v = true)
    (he : encode_ipld v = .ok e) : decode_ipld e = .ok (v, []) := by
  unfold decode_ipld
  have h := read_ipld_encode (e.length + 1) v e hv he (by omega) []
  simpa using h

/-- C2 witness: a map with a list (null, bool, positive and negative
integers, a string), a float, bytes and a 23-byte link, decoded back
from its concrete encoding. -/
theorem claim_c2_round_trip_witness :
    decode_ipld [164, 97, 97, 133, 246, 245, 25, 1, 244, 59, 255, 255, 255, 255, 255,
      255, 255, 255, 98, 104, 105, 97, 98, 250, 63, 192, 0, 0, 97, 99, 67, 1, 2, 3,
      97, 100, 216, 42, 88, 24, 0, 9, 9, 9, 9, 9, 9, 9, 9, 9, 9, 9, 9, 9, 9, 9, 9,
      9, 9, 9, 9, 9, 9, 9] =
      .ok (Ipld.map (.cons [0x61] (.list (.cons .null (.cons (.bool true)
        (.cons (.integer 500) (.cons (.integer (-(2 ^ 64)))
        (.cons (.string [0x68, 0x69]) .nil))))))
        (.cons [0x62] (.float 0x3ff8000000000000)
        (.cons [0x63] (.bytes [1, 2, 3])
        (.cons [0x64] (.link ⟨List.replicate 23 9⟩) .nil)))), []) :=
  claim_c2_round_trip _ _ (by decide) rfl

/-- C3: a link whose identifier length + 1 is at least 24 (and at most 255,
fitting the 1-byte width) round-trips; a link whose identifier length + 1
is at most 23 encodes with an inline-length byte string that the decoder —
requiring exactly the 1-byte-width code 0x58 — rejects with an unknown-tag
error. -/
theorem claim_c3_link_boundary :
    (∀ cb : List Nat, 23 ≤ cb.length → cb.length ≤ 254 →
      ∀ e, encode_ipld (.link ⟨cb⟩) = .ok e → decode_ipld e = .ok (.link ⟨cb⟩, [])) ∧
    (∀ cb : List Nat, cb.length + 1 ≤ 23 →
      encode_ipld (.link ⟨cb⟩) = .ok ([0xd8, 0x2a, 0x40 + (cb.length + 1), 0] ++ cb) ∧
      decode_ipld ([0xd8, 0x2a, 0x40 + (cb.length + 1), 0] ++ cb) =
        .error Error.unknownTag) := by
  constructor
  · intro cb h1 h2 e he
    have he' : write_tag 42 ++ write_u64 2 (cb.length + 1) ++ 0 :: cb = e := by
      simpa [encode_ipld] using he
    unfold decode_ipld
    subst he'
    have h := read_ipld_write_link
      (write_tag 42 ++ write_u64 2 (cb.length + 1) ++ 0 :: cb).length cb h1 h2 []
    simpa using h
  · intro cb hlen
    have hw : write_u64 2 (cb.length + 1) = [0x40 + (cb.length + 1)] := by
      rcases write_u64_cases 2 (cb.length + 1) with ⟨ha, e2⟩ | ⟨ha, _, _⟩ | ⟨ha, _, _⟩ |
        ⟨ha, _, _⟩ | ⟨ha, _⟩ <;> first
        | omega
        | (rw [e2]; try norm_num)
    constructor
    · simp only [encode_ipld, Except.ok.injEq]
      rw [show write_tag 42 = [0xd8, 0x2a] from rfl, hw]
      simp
    · unfold decode_ipld
      simp only [List.cons_append, List.nil_append]
      rw [read_ipld_0xd8]
      rw [show (0x2a : Nat) = 42 from rfl]
      rw [read_link_bad_width (0x40 + (cb.length + 1)) (0 :: cb) (by omega)]
      simp

/-- C3 witness: a 23-byte identifier round-trips through the 1-byte-width
path, and a 2-byte identifier encodes inline (`0x43`) but fails to decode
with an unknown-tag error. -/
theorem claim_c3_link_boundary_witness :
    decode_ipld [216, 42, 88, 24, 0, 7, 7, 7, 7, 7, 7, 7, 7, 7, 7, 7, 7, 7, 7, 7, 7,
      7, 7, 7, 7, 7, 7, 7] = .ok (.link ⟨List.replicate 23 7⟩, []) ∧
    (encode_ipld (.link ⟨[1, 2]⟩) = .ok ([0xd8, 0x2a, 0x40 + 3, 0] ++ [1, 2]) ∧
      decode_ipld ([0xd8, 0x2a, 0x40 + 3, 0] ++ [1, 2]) = .error Error.unknownTag) :=
  ⟨claim_c3_link_boundary.1 (List.replicate 23 7) (by decide) (by decide) _ rfl,
   claim_c3_link_boundary.2 [1, 2] (by decide)⟩

/-- C4: the link decoder, after the 0xd8 leading byte: a tag value other
than 42 is an unknown-tag error; a byte-string length code other than the
1-byte-explicit-width form 0x58 is an unknown-tag error; a zero length
field is a length-out-of-range error; a nonzero first content byte is an
invalid-identifier-prefix error naming that byte; otherwise the remaining
content bytes parse as a content identifier. -/
theorem claim_c4_read_link :
    (∀ t r, t ≠ 42 → read_link (t :: r) = .error Error.unknownTag) ∧
    (∀ ty r, ty ≠ 0x58 → read_link (42 :: ty :: r) = .error Error.unknownTag) ∧
    (∀ r, read_link (42 :: 0x58 :: 0 :: r) = .error Error.lengthOutOfRange) ∧
    (∀ len b content rest, (b :: content).length = len → b ≠ 0 →
      read_link (42 :: 0x58 :: len :: ((b :: content) ++ rest)) =
        .error (Error.invalidCidByte b)) ∧
    (∀ len content rest, content.length + 1 = len →
      read_link (42 :: 0x58 :: len :: ((0 :: content) ++ rest)) =
        (Cid.tryFrom content >>= fun c => .ok (c, rest))) := by
  refine ⟨read_link_bad_tag, read_link_bad_width, read_link_zero_len,
    read_link_bad_pad, ?_⟩
  intro len content rest hlen
  rw [read_link_ok len content rest hlen]
  rfl

/-- C4 witness: each arm of the link decoder exercised on a concrete
input — wrong tag 41, wrong width code 0x44, zero length, nonzero padding
byte 9, and a successful parse of identifier bytes [1, 2]. -/
theorem claim_c4_read_link_witness :
    read_link [41] = .error Error.unknownTag ∧
    read_link [42, 0x44, 3, 0, 1, 2] = .error Error.unknownTag ∧
    read_link [42, 0x58, 0, 7] = .error Error.lengthOutOfRange ∧
    read_link [42, 0x58, 3, 9, 1, 2] = .error (Error.invalidCidByte 9) ∧
    read_link [42, 0x58, 3, 0, 1, 2] = (Cid.tryFrom [1, 2] >>= fun c => .ok (c, [])) :=
  ⟨claim_c4_read_link.1 41 [] (by decide),
   claim_c4_read_link.2.1 0x44 [3, 0, 1, 2] (by decide),
   claim_c4_read_link.2.2.1 [7],
   claim_c4_read_link.2.2.2.1 3 9 [1, 2] [] (by decide) (by decide),
   claim_c4_read_link.2.2.2.2 3 [1, 2] [] (by decide)⟩

/-- C5: encoding f32/f64 positive infinity emits exactly 0xf9 0x7c 0x00,
negative infinity 0xf9 0xfc 0x00 and any NaN 0xf9 0x7e 0x00 (every
non-finite f64 is first narrowed to f32, preserving class and sign, and
takes the same fixed sequences); generic-value decode of each of these
sequences fails with an unexpected-code error, the dispatch having no rule
for 0xf9 — so decode(encode v) errors for every non-finite float v. -/
theorem claim_c5_nonfinite_float :
    (∀ b, b < 2 ^ 64 → isInf64 b = true → f64Sign b = 0 →
      encode_f64 b = [0xf9, 0x7c, 0x00]) ∧
    (∀ b, b < 2 ^ 64 → isInf64 b = true → f64Sign b = 1 →
      encode_f64 b = [0xf9, 0xfc, 0x00]) ∧
    (∀ b, b < 2 ^ 64 → isNaN64 b = true → encode_f64 b = [0xf9, 0x7e, 0x00]) ∧
    decode_ipld [0xf9, 0x7c, 0x00] = .error Error.unexpectedCode ∧
    decode_ipld [0xf9, 0xfc, 0x00] = .error Error.unexpectedCode ∧
    decode_ipld [0xf9, 0x7e, 0x00] = .error Error.unexpectedCode ∧
    (∀ b, b < 2 ^ 64 → isFinite64 b = false →
      decode_ipld (encode_f64 b) = .error Error.unexpectedCode) := by
  have hinf_fin : ∀ b, isInf64 b = true → isFinite64 b = false := by
    intro b h
    simp only [isInf64, Bool.and_eq_true, decide_eq_true_eq] at h
    simp [isFinite64, h.1]
  have hnan_fin : ∀ b, isNaN64 b = true → isFinite64 b = false := by
    intro b h
    simp only [isNaN64, Bool.and_eq_true, decide_eq_true_eq] at h
    simp [isFinite64, h.1]
  have henc_inf_pos : ∀ b, b < 2 ^ 64 → isInf64 b = true → f64Sign b = 0 →
      encode_f64 b = [0xf9, 0x7c, 0x00] := by
    intro b hb hinf hs
    unfold encode_f64
    rw [if_pos (by simp [hinf_fin b hinf])]
    obtain ⟨hi32, hsg⟩ := (f64toF32_nonfinite b hb).1 hinf
    unfold encode_f32
    rw [if_pos (by simp [hi32]), if_pos (by rw [hsg]; exact hs)]
  have henc_inf_neg : ∀ b, b < 2 ^ 64 → isInf64 b = true → f64Sign b = 1 →
      encode_f64 b = [0xf9, 0xfc, 0x00] := by
    intro b hb hinf hs
    unfold encode_f64
    rw [if_pos (by simp [hinf_fin b hinf])]
    obtain ⟨hi32, hsg⟩ := (f64toF32_nonfinite b hb).1 hinf
    unfold encode_f32
    rw [if_pos (by simp [hi32]), if_neg (by rw [hsg, hs]; norm_num)]
  have henc_nan : ∀ b, b < 2 ^ 64 → isNaN64 b = true →
      encode_f64 b = [0xf9, 0x7e, 0x00] := by
    intro b hb hnan
    unfold encode_f64
    rw [if_pos (by simp [hnan_fin b hnan])]
    have hn32 := (f64toF32_nonfinite b hb).2 hnan
    have hni : isInf32 (f64toF32 b) = false := by
      simp only [isNaN32, Bool.and_eq_true, decide_eq_true_eq, ne_eq] at hn32
      simp [isInf32, hn32.2]
    unfold encode_f32
    rw [if_neg (by simp [hni]), if_pos (by simp [hn32])]
  refine ⟨henc_inf_pos, henc_inf_neg, henc_nan, rfl, rfl, rfl, ?_⟩
  intro b hb hnf
  have hexp : f64Exp b = 0x7ff := by
    by_contra hc
    simp [isFinite64, hc] at hnf
  have hs : f64Sign b ≤ 1 := (f64_decompose b hb).2.1
  have henc : ∃ t, encode_f64 b = [0xf9, t, 0x00] := by
    by_cases hm : f64Man b = 0
    · have hinf : isInf64 b = true := by simp [isInf64, hexp, hm]
      by_cases hsg : f64Sign b = 0
      · exact ⟨0x7c, henc_inf_pos b hb hinf hsg⟩
      · exact ⟨0xfc, henc_inf_neg b hb hinf (by omega)⟩
    · have hnan : isNaN64 b = true := by simp [isNaN64, hexp, hm]
      exact ⟨0x7e, henc_nan b hb hnan⟩
  obtain ⟨t, ht⟩ := henc
  rw [ht]
  exact read_ipld_0xf9 3 [t, 0x00]

/-- C5 witness: the three fixed sequences at the canonical bit patterns of
+infinity, -infinity and a quiet NaN, and the decode failure applied to
the NaN encoding. -/
theorem claim_c5_nonfinite_float_witness :
    encode_f64 0x7ff0000000000000 = [0xf9, 0x7c, 0x00] ∧
    encode_f64 0xfff0000000000000 = [0xf9, 0xfc, 0x00] ∧
    encode_f64 0x7ff8000000000000 = [0xf9, 0x7e, 0x00] ∧
    decode_ipld (encode_f64 0x7ff8000000000000) = .error Error.unexpectedCode :=
  ⟨claim_c5_nonfinite_float.1 0x7ff0000000000000 (by norm_num) (by decide) (by decide),
   claim_c5_nonfinite_float.2.1 0xfff0000000000000 (by norm_num) (by decide) (by decide),
   claim_c5_nonfinite_float.2.2.1 0x7ff8000000000000 (by norm_num) (by decide),
   claim_c5_nonfinite_float.2.2.2.2.2.2 0x7ff8000000000000 (by norm_num) (by decide)⟩

/-- C6 counterexample: `read_key` does not succeed only on inputs beginning
with the expected key's encoding. The canonical encoding of the key "a"
(bytes [0x61]) is [0x61, 0x61], yet the input [0x37, 0x61] — whose first
byte is not a text-string header at all — is accepted, because the code
compares only the bytes after the first one and never validates the
length-prefix byte. -/
theorem claim_c6_read_key_cex :
    read_key [0x61] [0x37, 0x61] = .ok [] ∧
    write_u64 3 1 ++ [0x61] = [0x61, 0x61] ∧
    [0x37, 0x61] ≠ [0x61, 0x61] := by
  refine ⟨rfl, rfl, by decide⟩

/-- C6 (amended): `read_key(expected)` reads `expected.len() + 1` bytes
(failing with an I/O error when fewer are available) and succeeds exactly
when all of them but the first equal the expected key's bytes — the first
(length-prefix) byte is never validated — failing with an unexpected-key
error otherwise. -/
theorem claim_c6_read_key (key input : List Nat) :
    read_key key input =
      if input.length < key.length + 1 then .error Error.ioError
      else if key = (input.take (key.length + 1)).drop 1 then
        .ok (input.drop (key.length + 1))
      else .error Error.unexpectedKey := by
  unfold read_key read_bytes
  by_cases h : input.length < key.length + 1
  · rw [if_pos h, if_pos h]
    rfl
  · rw [if_neg h, if_neg h]
    simp only [except_bind_ok]

/-- C7 counterexample: decoding the inline-tag byte 0xc0 (tag value 0)
fails, but with the unexpected-code error of the generic dispatch's
fall-through, not with the unknown-tag error the claim names. -/
theorem claim_c7_tag_cex :
    decode_ipld [0xc0] = .error Error.unexpectedCode ∧
    Error.unexpectedCode ≠ Error.unknownTag := by
  refine ⟨rfl, by decide⟩

/-- C7 (amended): in generic-value decode of a major-type-6 item, only the
single-byte tag form 0xd8 is claimed by the dispatch, its payload read by
the link decoder; 0xd8 followed by a tag value other than 42 fails with an
unknown-tag error; every other major-type-6 leading byte (the inline forms
0xc0-0xd7 and the multi-byte widths 0xd9-0xdb) is unclaimed and fails with
the generic unexpected-code error instead. -/
theorem claim_c7_tag_dispatch :
    (∀ fuel bytes, read_ipld (fuel + 1) (0xd8 :: bytes) =
      (read_link bytes >>= fun p => .ok (.link p.1, p.2))) ∧
    (∀ fuel t bytes, t ≠ 42 →
      read_ipld (fuel + 1) (0xd8 :: t :: bytes) = .error Error.unknownTag) ∧
    (∀ fuel b bytes, 0xc0 ≤ b → b ≤ 0xdb → b ≠ 0xd8 →
      read_ipld (fuel + 1) (b :: bytes) = .error Error.unexpectedCode) := by
  refine ⟨read_ipld_0xd8, ?_, read_ipld_unclaimed_tag⟩
  intro fuel t bytes ht
  rw [read_ipld_0xd8, read_link_bad_tag t bytes ht]
  rfl

/-- C7 witness: the recognized byte 0xd8 at tag 42 decoding a link, 0xd8
with tag value 43 failing with unknown-tag, and the inline tag 0xc1 and
the 2-byte tag width 0xd9 failing with unexpected-code. -/
theorem claim_c7_tag_dispatch_witness :
    read_ipld 1 [0xd8, 42, 0x58, 3, 0, 1, 2] =
      (read_link [42, 0x58, 3, 0, 1, 2] >>= fun p => .ok (.link p.1, p.2)) ∧
    read_ipld 1 [0xd8, 43] = .error Error.unknownTag ∧
    read_ipld 1 [0xc1] = .error Error.unexpectedCode ∧
    read_ipld 1 [0xd9, 0, 42] = .error Error.unexpectedCode :=
  ⟨claim_c7_tag_dispatch.1 0 [42, 0x58, 3, 0, 1, 2],
   claim_c7_tag_dispatch.2.1 0 43 [] (by decide),
   claim_c7_tag_dispatch.2.2 0 0xc1 [] (by decide) (by decide) (by decide),
   claim_c7_tag_dispatch.2.2 0 0xd9 [0, 42] (by decide) (by decide) (by decide)⟩

/-- C8: decoding a wire map that carries two entries for the same key
succeeds and yields a map holding only the later entry's value: each pair
is inserted into the accumulated map, and insertion overwrites on an equal
key, raising no duplicate-key error. Stated for a two-entry wire map with
an arbitrary key and arbitrary encodable values. -/
theorem claim_c8_duplicate_key (k : List Nat) (hk : validUtf8 k = true)
    (hkl : k.length < 2 ^ 64) (v1 v2 : Ipld) (h1 : valid v1 = true) (h2 : valid v2 = true)
    (e1 e2 : List Nat) (he1 : encode_ipld v1 = .ok e1) (he2 : encode_ipld v2 = .ok e2) :
    decode_ipld (0xa2 :: ((write_u64 3 k.length ++ k) ++ e1 ++
      ((write_u64 3 k.length ++ k) ++ e2))) =
      .ok (.map (.cons k v2 .nil), []) := by
  have hw := write_u64_length_pos 3 k.length
  have hl1 := encode_nonempty v1 e1 he1
  unfold decode_ipld
  have hfe : ((0xa2 : Nat) :: ((write_u64 3 k.length ++ k) ++ e1 ++
      ((write_u64 3 k.length ++ k) ++ e2))).length + 1 =
      (((write_u64 3 k.length ++ k) ++ e1 ++
        ((write_u64 3 k.length ++ k) ++ e2)).length + 1) + 1 := by
    simp
  rw [hfe]
  rw [show (0xa2 : Nat) :: ((write_u64 3 k.length ++ k) ++ e1 ++
      ((write_u64 3 k.length ++ k) ++ e2)) =
      (write_u64 5 2 ++ ((write_u64 3 k.length ++ k) ++ e1 ++
        ((write_u64 3 k.length ++ k) ++ e2))) ++ [] from by
    rw [show write_u64 5 2 = [0xa2] from rfl]
    simp]
  rw [read_ipld_write_map _ 2 (by norm_num) _ []]
  rw [List.append_nil]
  rw [List.append_assoc (write_u64 3 k.length ++ k) e1]
  simp only [read_map_aux]
  rw [read_string_write k hk hkl (e1 ++ ((write_u64 3 k.length ++ k) ++ e2))]
  simp only [except_bind_ok]
  rw [read_ipld_encode _ v1 e1 h1 he1 (by simp [List.length_append]; omega)
    ((write_u64 3 k.length ++ k) ++ e2)]
  simp only [except_bind_ok, read_map_aux]
  rw [read_string_write k hk hkl e2]
  simp only [except_bind_ok]
  rw [show e2 = e2 ++ [] from (List.append_nil e2).symm]
  rw [read_ipld_encode _ v2 e2 h2 he2 (by simp [List.length_append]; omega) []]
  simp only [except_bind_ok, read_map_aux, insertKV, keyLt_irrefl]
  simp

/-- C8 witness: the wire map {"a": null, "a": true} decodes to the
single-entry map {"a": true}. -/
theorem claim_c8_duplicate_key_witness :
    decode_ipld [0xa2, 0x61, 0x61, 0xf6, 0x61, 0x61, 0xf5] =
      .ok (.map (.cons [0x61] (.bool true) .nil), []) :=
  claim_c8_duplicate_key [0x61] (by decide) (by decide) .null (.bool true)
    (by decide) (by decide) [0xf6] [0xf5] rfl rfl

/-- C9: encoding an integer value outside `[-2^64, 2^64 - 1]` fails with a
number-out-of-range error returned to the caller, and any integer inside
that range succeeds — major type 0 with the value itself when
non-negative, major type 1 with magnitude `-1 - value` when negative. -/
theorem claim_c9_integer_range (v : Int) :
    encode_i128 v =
      if v < -(2 ^ 64 : Int) ∨ (2 ^ 64 - 1 : Int) < v then .error Error.numberOutOfRange
      else if v < 0 then .ok (write_u64 1 (-1 - v).toNat)
      else .ok (write_u64 0 v.toNat) := by
  unfold encode_i128
  split_ifs <;> first
    | rfl
    | omega
    | (simp only [Except.ok.injEq]
       congr 2
       omega)

/-- C10: type-directed signed decode never checks that the magnitude fits
the target type: decoding 0x38 0x80 as an i8 returns 127 (instead of the
denoted -129), and decoding 0x3b followed by any 8-byte magnitude of at
least 2^63 as an i64 returns the non-negative value 2^64 - 1 - u (instead
of the denoted -1 - u), because each arm computes -1 - (magnitude as iN)
with a wrapping cast. -/
theorem claim_c10_signed_wrapping :
    decode_i8 [0x38, 0x80] = .ok (127, []) ∧
    (∀ u, 2 ^ 63 ≤ u → u < 2 ^ 64 →
      decode_i64 (0x3b :: be64 u) = .ok ((2 ^ 64 - 1 - (u : Int), [])) ∧
      (0 : Int) ≤ 2 ^ 64 - 1 - (u : Int) ∧ (2 ^ 64 - 1 - (u : Int)) ≠ -1 - (u : Int)) := by
  constructor
  · rfl
  · intro u hu1 hu2
    have h64 : read_u64 (be64 u) = .ok (u, []) := by
      have h := read_u64_be u hu2 []
      simpa using h
    refine ⟨?_, by omega, by omega⟩
    simp only [decode_i64, read_u8_cons, except_bind_ok]
    simp only [try_read_i64]
    norm_num
    rw [h64]
    simp only [except_bind_ok, castU64I64]
    rw [if_neg (by omega)]
    simp only [Except.ok.injEq, Prod.mk.injEq]
    refine ⟨by omega, trivial⟩

/-- C10 witness: the wrapping behaviour at the i8 input 0x38 0x80 and at
the i64 magnitude 2^63. -/
theorem claim_c10_signed_wrapping_witness :
    decode_i8 [0x38, 0x80] = .ok (127, []) ∧
    decode_i64 (0x3b :: be64 (2 ^ 63)) = .ok ((2 ^ 64 - 1 - (2 ^ 63 : Int), [])) :=
  ⟨claim_c10_signed_wrapping.1,
   (claim_c10_signed_wrapping.2 (2 ^ 63) (by norm_num) (by norm_num)).1⟩

end Cbor42
